import Mathlib

/-!
Verification of the Homebase task-execution core against its design
documents.  The definitions below are a shallow embedding of the
TypeScript code embedded in `specs/planning-execution.md`,
`specs/agent-runtime.md` and the sub-agents specification: plan and step
records, the `ExecutionEngine.execute` scheduling loop, `executeStep`,
the `ExecutionContext` with `resolveArgs`, the `SubAgentPool`, and the
retry helpers.  External collaborators (tool implementations, the
approval gate) are modelled as oracle functions bundled in `Env`.
Helpers that the source calls but never defines (`hasRemainingSteps`,
`allDependenciesSatisfied`, `summarize`, acyclicity checking) are
modelled from the spec and marked as such in their doc comments.
Wall-clock time is not modelled; retry sleeps are recorded as the list
of requested delays.
-/

namespace Homebase

/-- A JavaScript-style value: the argument bags and step outputs are
`Record<string, unknown>` in the source; we model the values that the
code actually inspects (strings, for `$step` references) plus opaque
numbers, booleans and the `undefined` value that `Map.get` returns for
a missing key. -/
inductive JVal where
  | str : String → JVal
  | num : Int → JVal
  | boolean : Bool → JVal
  | undef : JVal
deriving DecidableEq

/-- `StepStatus` from specs/planning-execution.md. -/
inductive StepStatus where
  | pending
  | blocked
  | ready
  | running
  | completed
  | failed
  | skipped
deriving DecidableEq

/-- `StepResult` from specs/planning-execution.md; the `duration` and
`timestamp` fields carry wall-clock data and are not modelled. -/
structure StepResult where
  ok : Bool
  value : JVal := JVal.undef
  error : Option String := none
deriving DecidableEq

/-- `Step` from specs/planning-execution.md. -/
structure Step where
  id : String
  order : Nat := 0
  description : String := ""
  tool : String
  args : List (String × JVal) := []
  dependsOn : List String := []
  status : StepStatus := StepStatus.pending
  result : Option StepResult := none
deriving DecidableEq

/-- `Plan` from specs/planning-execution.md (`createdAt` is wall-clock
data and is not modelled). -/
structure Plan where
  id : String := ""
  taskId : String := ""
  version : Nat := 1
  steps : List Step
deriving DecidableEq

def StepStatus.isTerminal : StepStatus → Bool
  | .completed => true
  | .failed => true
  | .skipped => true
  | _ => false

def StepStatus.isPending : StepStatus → Bool
  | .pending => true
  | _ => false

def StepStatus.isCompleted : StepStatus → Bool
  | .completed => true
  | _ => false

/-- `ExecutionContext` from specs/planning-execution.md: a
`Map<string, unknown>`; we model the map as an association list where
`set` prepends (so `get` finds the newest binding first, matching
`Map.set` overwrite semantics). -/
structure ExecutionContext where
  store : List (String × JVal) := []
deriving DecidableEq

def ExecutionContext.set (c : ExecutionContext) (stepId : String) (value : JVal) :
    ExecutionContext :=
  { store := (stepId, value) :: c.store }

def ExecutionContext.get (c : ExecutionContext) (stepId : String) : Option JVal :=
  (c.store.find? (fun p => p.1 == stepId)).map (fun p => p.2)

/-- JavaScript `value.startsWith("$")`, modelled on the string's
character list (core's byte-based `String.startsWith` does not reduce
in the kernel): true exactly when the first character is `$`. -/
def startsWithDollar (s : String) : Bool :=
  match s.data with
  | [] => false
  | c :: _ => c == '$'

/-- JavaScript `value.slice(1)`: the string without its first
character. -/
def sliceOne (s : String) : String := String.mk (s.data.drop 1)

/-- `ExecutionContext.resolveArgs`: `mapValues` over the argument bag,
replacing a string value of the form `"$stepId"` by the context entry
for `stepId`.  In JavaScript `this.get(stepId)` yields `undefined` when
the key is absent, so a missing entry resolves to `JVal.undef`. -/
def ExecutionContext.resolveArgs (c : ExecutionContext)
    (args : List (String × JVal)) : List (String × JVal) :=
  args.map fun kv =>
    match kv.2 with
    | JVal.str s =>
        if startsWithDollar s then (kv.1, (c.get (sliceOne s)).getD JVal.undef) else kv
    | _ => kv

/-- Outcome of `tool.execute(step.args)`: the promise either resolves
with a `StepResult` or rejects (modelled as the thrown message). -/
inductive ToolOutcome where
  | ret : StepResult → ToolOutcome
  | thrown : String → ToolOutcome
deriving DecidableEq

/-- The engine's external collaborators: the approval predicate and the
approval gate decision (`requiresApproval`, `requestApproval`), and the
tool registry with tool execution (`toolRegistry.get(name).execute`),
keyed by tool name and argument bag.  A registry miss is modelled as a
`thrown` outcome (the source dereferences with `!`, so a missing tool
throws and lands in the `catch` branch). -/
structure Env where
  requiresApproval : Step → Bool
  requestApproval : Step → Bool
  toolExec : String → List (String × JVal) → ToolOutcome

/-- The step as `executeStep` sees it after `step.status = 'running'`;
the approval oracles are applied to this mutated step. -/
def Step.running (s : Step) : Step := { s with status := StepStatus.running }

/-- Observable actions of a run: a step transitioning to `running`
(dispatch), and a capability invocation. -/
inductive Event where
  | dispatched : String → Event
  | invoked : String → String → Event
deriving DecidableEq

structure StepOutcome where
  step : Step
  ctx : ExecutionContext
  events : List Event

/-- `ExecutionEngine.executeStep` from specs/planning-execution.md:
mark the step running, consult the approval gate, then invoke the tool,
record the result, and store the produced value in the context.  The
`emitProgress` calls are external reporting and are not modelled; the
dispatch and invocation are recorded as events. -/
def executeStep (env : Env) (step : Step) (context : ExecutionContext) : StepOutcome :=
  let stepR := step.running
  if env.requiresApproval stepR && !(env.requestApproval stepR) then
    { step := { stepR with
        status := StepStatus.skipped
        result := some { ok := false, error := some "User denied approval" } }
      ctx := context
      events := [Event.dispatched stepR.id] }
  else
    match env.toolExec stepR.tool stepR.args with
    | ToolOutcome.ret r =>
        { step := { stepR with
            status := if r.ok then StepStatus.completed else StepStatus.failed
            result := some r }
          ctx := context.set stepR.id r.value
          events := [Event.dispatched stepR.id, Event.invoked stepR.id stepR.tool] }
    | ToolOutcome.thrown e =>
        { step := { stepR with
            status := StepStatus.failed
            result := some { ok := false, error := some e } }
          ctx := context
          events := [Event.dispatched stepR.id, Event.invoked stepR.id stepR.tool] }

/-- Modelled from the spec: `hasRemainingSteps` is called by
`ExecutionEngine.execute` but not defined in src; the loop runs "while
the graph is not exhausted", i.e. while some step is not in a terminal
status. -/
def hasRemainingSteps (plan : Plan) : Bool :=
  plan.steps.any fun s => !s.status.isTerminal

/-- Modelled from the spec: `allDependenciesSatisfied` is called by
`ExecutionEngine.execute` but not defined in src; per the design, "a
step is ready when all of its prerequisite steps are in status
completed". -/
def allDependenciesSatisfied (step : Step) (plan : Plan) : Bool :=
  step.dependsOn.all fun d =>
    match plan.steps.find? (fun t => t.id == d) with
    | some t => t.status.isCompleted
    | none => false

/-- The ready filter of `ExecutionEngine.execute`: steps with status
`'pending'` whose dependencies are all satisfied. -/
def readySteps (plan : Plan) : List Step :=
  plan.steps.filter fun s => s.status.isPending && allDependenciesSatisfied s plan

/-- Write back one mutated step (the source mutates the step object in
place; we replace the element with the matching id). -/
def updateStep (plan : Plan) (s : Step) : Plan :=
  { plan with steps := plan.steps.map fun t => if t.id == s.id then s else t }

structure EngineState where
  plan : Plan
  ctx : ExecutionContext
  events : List Event := []
  ticks : List (List String) := []
  fueled : Bool := true

/-- Execute one ready step, found by id, and write the mutated step and
context back into the engine state. -/
def runStepById (env : Env) (st : EngineState) (i : String) : EngineState :=
  match st.plan.steps.find? (fun t => t.id == i) with
  | some s =>
      let o := executeStep env s st.ctx
      { st with plan := updateStep st.plan o.step, ctx := o.ctx
                events := st.events ++ o.events }
  | none => st

/-- One scheduling tick's parallel batch (`Promise.all` over the ready
steps).  Each `executeStep` touches only its own step and its own
context key, so the batch is modelled as a left fold in ready order. -/
def runBatch (env : Env) (ids : List String) (st : EngineState) : EngineState :=
  ids.foldl (runStepById env) st

/-- The `while (hasRemainingSteps(plan))` loop of
`ExecutionEngine.execute`, with explicit fuel.  `fueled := false` marks
fuel exhaustion; `execute` supplies enough fuel, and
`executeLoop_fueled` proves that the supplied fuel is never exhausted,
which is the termination argument for the source's while loop. -/
def executeLoop (env : Env) : Nat → EngineState → EngineState
  | 0, st => { st with fueled := false }
  | fuel + 1, st =>
      if hasRemainingSteps st.plan then
        let ready := readySteps st.plan
        if ready.isEmpty then st
        else
          let ids := ready.map (fun s => s.id)
          let st1 := runBatch env ids st
          executeLoop env fuel { st1 with ticks := st1.ticks ++ [ids] }
      else st

def pendingCount (plan : Plan) : Nat :=
  (plan.steps.filter fun s => s.status.isPending).length

/-- `ExecutionEngine.execute`: fresh context, scheduling loop, then the
summary.  One pending step leaves the pending set per productive tick,
so `pendingCount + 1` rounds of fuel always suffice. -/
def execute (env : Env) (plan : Plan) : EngineState :=
  executeLoop env (pendingCount plan + 1)
    { plan := plan, ctx := {}, events := [], ticks := [], fueled := true }

/-- Overall status of a run summary. -/
inductive RunStatus where
  | completed
  | failed
  | cancelled
  | structuralError
deriving DecidableEq

/-- Modelled from the spec: `summarize` is called by
`ExecutionEngine.execute` but not defined in src.  Per the design, a
run that stops while non-terminal steps remain is reported with a
structural-error status; otherwise the run is failed when some step
failed, and completed (possibly with skips) otherwise. -/
def summarize (plan : Plan) : RunStatus :=
  if plan.steps.any (fun s => !s.status.isTerminal) then RunStatus.structuralError
  else if plan.steps.any (fun s => s.status == StepStatus.failed) then RunStatus.failed
  else RunStatus.completed

/-! ### Plan validity

`validatePlan` checks acyclicity and that every dependency reference
resolves; `buildDependencyGraph`/`hasCycle` are called but not defined
in src, so acyclicity is modelled from the spec as the existence of a
topological rank (every dependency has strictly smaller rank), which is
the standard characterisation of "the dependency graph is acyclic".
Step ids are the keys of the graph, so a valid plan has pairwise
distinct ids, and a plan accepted for execution is fresh: every step is
`pending` with no result yet. -/

def Plan.stepIds (p : Plan) : List String := p.steps.map (fun s => s.id)

def depsResolvable (p : Plan) : Bool :=
  p.steps.all fun s => s.dependsOn.all fun d =>
    (p.steps.find? (fun t => t.id == d)).isSome

/-- Modelled from the spec: acyclicity of the dependency graph as the
existence of a topological rank. -/
def RankedAcyclic (p : Plan) : Prop :=
  ∃ rank : String → Nat, ∀ s ∈ p.steps, ∀ d ∈ s.dependsOn, rank d < rank s.id

def ValidPlan (p : Plan) : Prop :=
  p.stepIds.Nodup ∧ depsResolvable p = true ∧ RankedAcyclic p ∧
    ∀ s ∈ p.steps, s.status = StepStatus.pending ∧ s.result = none

/-- A direct dependency edge: step `a` lists `b` among its
prerequisites. -/
def dependsDirect (p : Plan) (a b : String) : Prop :=
  ∃ s ∈ p.steps, s.id = a ∧ b ∈ s.dependsOn

/-- A (non-empty) dependency path through the plan graph. -/
inductive DepPath (p : Plan) : String → String → Prop where
  | single {a b : String} : dependsDirect p a b → DepPath p a b
  | cons {a b c : String} : dependsDirect p a b → DepPath p b c → DepPath p a c

/-! ### Sub-agent pool (fan-out worker pool)

From the sub-agents specification: `SubAgentPool` spawns
`min(count, maxConcurrency)` workers; `executeAll` starts one
queue-processing worker per spawned agent, so the pool's effective
parallelism is the number of spawned agents.  The orchestration tool
`spawn_sub_agents` constructs the pool with the batch's requested count
as `maxConcurrency` and spawns that count.  The declared resource
`limits` constants are reproduced verbatim. -/

structure SubAgentPool where
  agents : List Nat := []
  maxConcurrency : Nat := 5

/-- `new SubAgentPool(maxConcurrency = 5)`. -/
def SubAgentPool.make (maxConcurrency : Nat := 5) : SubAgentPool :=
  { agents := [], maxConcurrency := maxConcurrency }

/-- `SubAgentPool.spawn(count)`: pushes `min(count, maxConcurrency)`
freshly created sub-agents (modelled by their numeric ids). -/
def SubAgentPool.spawn (pool : SubAgentPool) (count : Nat) : SubAgentPool :=
  let toSpawn := min count pool.maxConcurrency
  { pool with agents := pool.agents ++ List.range toSpawn }

/-- `executeAll` maps one `processQueue` worker over `this.agents`, so
this many workers pull from the shared queue concurrently. -/
def SubAgentPool.effectiveParallelism (pool : SubAgentPool) : Nat :=
  pool.agents.length

/-- `limits.maxSubAgents` ("Hard limit") from the sub-agents spec. -/
def limits_maxSubAgents : Nat := 10

/-- `limits.maxPerTask` ("Default for most tasks"). -/
def limits_maxPerTask : Nat := 5

/-- `spawnSubAgentsTool.execute`: `new SubAgentPool(args.count)` then
`pool.spawn(args.count)`; the resulting worker count for the batch. -/
def spawnSubAgentsTool_workers (count : Nat) : Nat :=
  ((SubAgentPool.make count).spawn count).effectiveParallelism

/-! ### Retry helpers

`executeWithRetry` from specs/agent-runtime.md and the "Strategy 2:
Retry" loop from specs/planning-execution.md.  One attempt of the
wrapped operation is an `Attempt`: the promise resolves with a value or
rejects with a thrown error.  `sleep` calls are recorded as the list of
requested delays in milliseconds. -/

inductive Attempt (T : Type) where
  | val : T → Attempt T
  | err : String → Attempt T
deriving DecidableEq

inductive RetryResult (T : Type) where
  | ok : T → RetryResult T
  | fail : String → RetryResult T
deriving DecidableEq

structure RetryTrace (T : Type) where
  result : RetryResult T
  attempts : Nat
  sleeps : List Nat
deriving DecidableEq

/-- The body of `executeWithRetry`'s `for` loop, with the loop index
`i` explicit and fuel for the remaining iterations.  A resolved attempt
returns `{ok:true, value}` at once; a rejected attempt on the last
iteration (`i = maxRetries - 1`) returns `{ok:false, error}`; otherwise
the loop sleeps `1000 * 2^i` and tries again. -/
def executeWithRetryGo {T : Type} (fn : Nat → Attempt T) (maxRetries : Nat) :
    Nat → Nat → RetryTrace T
  | 0, i => { result := RetryResult.fail "Unreachable", attempts := i, sleeps := [] }
  | fuel + 1, i =>
      if i < maxRetries then
        match fn i with
        | Attempt.val t => { result := RetryResult.ok t, attempts := i + 1, sleeps := [] }
        | Attempt.err e =>
            if i = maxRetries - 1 then
              { result := RetryResult.fail e, attempts := i + 1, sleeps := [] }
            else
              let r := executeWithRetryGo fn maxRetries fuel (i + 1)
              { r with sleeps := 1000 * 2 ^ i :: r.sleeps }
      else { result := RetryResult.fail "Unreachable", attempts := i, sleeps := [] }

/-- `executeWithRetry(fn, maxRetries = 3)` from specs/agent-runtime.md,
instrumented with the attempt count and the sleep delays. -/
def executeWithRetry {T : Type} (fn : Nat → Attempt T) (maxRetries : Nat := 3) :
    RetryTrace T :=
  executeWithRetryGo fn maxRetries maxRetries 0

/-- The "Strategy 2: Retry" loop from specs/planning-execution.md,
documented there as applying to transient failures: up to
`maxRetries = 3` calls of `executeStep`, breaking on `result.ok`,
sleeping `1000 * (i + 1)` between attempts. -/
def retryStrategyGo (attempt : Nat → StepResult) (maxRetries : Nat) :
    Nat → Nat → RetryTrace StepResult
  | 0, i => { result := RetryResult.fail "out of fuel", attempts := i, sleeps := [] }
  | fuel + 1, i =>
      if i < maxRetries then
        let r := attempt i
        if r.ok then { result := RetryResult.ok r, attempts := i + 1, sleeps := [] }
        else if i < maxRetries - 1 then
          let rest := retryStrategyGo attempt maxRetries fuel (i + 1)
          { rest with sleeps := 1000 * (i + 1) :: rest.sleeps }
        else { result := RetryResult.ok r, attempts := i + 1, sleeps := [] }
      else { result := RetryResult.fail "out of fuel", attempts := i, sleeps := [] }

def retryStrategy (attempt : Nat → StepResult) : RetryTrace StepResult :=
  retryStrategyGo attempt 3 3 0

/-- `executeStep` from specs/agent-runtime.md: a denied approval
returns a result value (it does not throw), an unknown tool returns a
result value, and a tool rejection propagates as a rejection of
`executeStep` itself. -/
def agentRtExecuteStep (env : Env) (step : Step) : Attempt StepResult :=
  if env.requiresApproval step && !(env.requestApproval step) then
    Attempt.val { ok := false, error := some "User denied approval" }
  else
    match env.toolExec step.tool step.args with
    | ToolOutcome.ret r => Attempt.val r
    | ToolOutcome.thrown e => Attempt.err e

/-! ### Step-level facts about `executeStep` -/

/-- The attributes of a step that the engine never mutates (only
`status` and `result` change). -/
def Evolves (s0 s' : Step) : Prop :=
  s'.id = s0.id ∧ s'.order = s0.order ∧ s'.description = s0.description ∧
    s'.tool = s0.tool ∧ s'.args = s0.args ∧ s'.dependsOn = s0.dependsOn

/-- The step is approval-gated and the gate denies it (both oracles are
consulted on the step in its `running` state, as in the source). -/
def gatedDenied (env : Env) (s : Step) : Prop :=
  env.requiresApproval s.running = true ∧ env.requestApproval s.running = false

/-- How a step came to its terminal status: approval denial, a tool
result, or a thrown tool error. -/
def StepCause (env : Env) (s0 s' : Step) : Prop :=
  (gatedDenied env s0 ∧ s'.status = StepStatus.skipped ∧
    s'.result = some { ok := false, value := JVal.undef, error := some "User denied approval" })
  ∨ (¬ gatedDenied env s0 ∧ ∃ r, env.toolExec s0.tool s0.args = ToolOutcome.ret r ∧
      s'.status = (if r.ok then StepStatus.completed else StepStatus.failed) ∧
      s'.result = some r)
  ∨ (¬ gatedDenied env s0 ∧ ∃ e, env.toolExec s0.tool s0.args = ToolOutcome.thrown e ∧
      s'.status = StepStatus.failed ∧
      s'.result = some { ok := false, value := JVal.undef, error := some e })

/-- Number of `dispatched` events recorded for a given step id. -/
def dcount (evs : List Event) (i : String) : Nat :=
  evs.countP fun e => e == Event.dispatched i

theorem gatedDenied_iff_guard (env : Env) (s : Step) :
    gatedDenied env s ↔
      (env.requiresApproval s.running && !(env.requestApproval s.running)) = true := by
  simp [gatedDenied, Bool.and_eq_true, Bool.not_eq_true']

theorem not_gatedDenied_guard {env : Env} {s : Step} (hg : ¬ gatedDenied env s) :
    (env.requiresApproval s.running && !(env.requestApproval s.running)) = false := by
  cases h : env.requiresApproval s.running && !(env.requestApproval s.running)
  · rfl
  · exact absurd ((gatedDenied_iff_guard env s).mpr h) hg

theorem executeStep_denied (env : Env) (s : Step) (ctx : ExecutionContext)
    (hg : gatedDenied env s) :
    executeStep env s ctx =
      { step :=
          { s.running with
            status := StepStatus.skipped
            result := some { ok := false, error := some "User denied approval" } }
        ctx := ctx
        events := [Event.dispatched s.id] } := by
  have hguard := (gatedDenied_iff_guard env s).mp hg
  simp only [executeStep]
  rw [hguard]
  rfl

theorem executeStep_ret (env : Env) (s : Step) (ctx : ExecutionContext) (r : StepResult)
    (hg : ¬ gatedDenied env s) (hm : env.toolExec s.tool s.args = ToolOutcome.ret r) :
    executeStep env s ctx =
      { step :=
          { s.running with
            status := if r.ok then StepStatus.completed else StepStatus.failed
            result := some r }
        ctx := ctx.set s.id r.value
        events := [Event.dispatched s.id, Event.invoked s.id s.tool] } := by
  simp only [executeStep]
  rw [not_gatedDenied_guard hg]
  simp only [Bool.false_eq_true, if_false]
  have htool : env.toolExec s.running.tool s.running.args = ToolOutcome.ret r := hm
  rw [htool]
  rfl

theorem executeStep_thrown (env : Env) (s : Step) (ctx : ExecutionContext) (e : String)
    (hg : ¬ gatedDenied env s) (hm : env.toolExec s.tool s.args = ToolOutcome.thrown e) :
    executeStep env s ctx =
      { step :=
          { s.running with
            status := StepStatus.failed
            result := some { ok := false, error := some e } }
        ctx := ctx
        events := [Event.dispatched s.id, Event.invoked s.id s.tool] } := by
  simp only [executeStep]
  rw [not_gatedDenied_guard hg]
  simp only [Bool.false_eq_true, if_false]
  have htool : env.toolExec s.running.tool s.running.args = ToolOutcome.thrown e := hm
  rw [htool]
  rfl

theorem executeStep_spec (env : Env) (s : Step) (ctx : ExecutionContext) :
    Evolves s (executeStep env s ctx).step ∧
      (executeStep env s ctx).step.status.isTerminal = true ∧
      StepCause env s (executeStep env s ctx).step ∧
      ((executeStep env s ctx).events = [Event.dispatched s.id] ∧ gatedDenied env s ∨
        (executeStep env s ctx).events = [Event.dispatched s.id, Event.invoked s.id s.tool]
          ∧ ¬ gatedDenied env s) := by
  by_cases hg : gatedDenied env s
  · rw [executeStep_denied env s ctx hg]
    exact ⟨⟨rfl, rfl, rfl, rfl, rfl, rfl⟩, rfl, Or.inl ⟨hg, rfl, rfl⟩, Or.inl ⟨rfl, hg⟩⟩
  · cases hm : env.toolExec s.tool s.args with
    | ret r =>
        rw [executeStep_ret env s ctx r hg hm]
        refine ⟨⟨rfl, rfl, rfl, rfl, rfl, rfl⟩, ?_, Or.inr (Or.inl ⟨hg, r, hm, rfl, rfl⟩),
          Or.inr ⟨rfl, hg⟩⟩
        cases hok : r.ok <;> rfl
    | thrown e =>
        rw [executeStep_thrown env s ctx e hg hm]
        exact ⟨⟨rfl, rfl, rfl, rfl, rfl, rfl⟩, rfl, Or.inr (Or.inr ⟨hg, e, hm, rfl, rfl⟩),
          Or.inr ⟨rfl, hg⟩⟩

theorem isPending_eq_false_of_isTerminal {st : StepStatus} (h : st.isTerminal = true) :
    st.isPending = false := by
  cases st <;> simp_all [StepStatus.isTerminal, StepStatus.isPending]

theorem dcount_nil (i : String) : dcount [] i = 0 := rfl

theorem dcount_cons (e : Event) (evs : List Event) (i : String) :
    dcount (e :: evs) i = dcount evs i + if e = Event.dispatched i then 1 else 0 := by
  simp [dcount, List.countP_cons, beq_iff_eq]

theorem dcount_append (l1 l2 : List Event) (i : String) :
    dcount (l1 ++ l2) i = dcount l1 i + dcount l2 i := by
  simp [dcount, List.countP_append]

theorem executeStep_dcount (env : Env) (s : Step) (ctx : ExecutionContext) (j : String) :
    dcount (executeStep env s ctx).events j = if j = s.id then 1 else 0 := by
  have hinv : dcount [Event.invoked s.id s.tool] j = 0 := by
    rw [dcount_cons, dcount_nil]
    simp
  have hsingle : ∀ tl : List Event, dcount tl j = 0 →
      dcount (Event.dispatched s.id :: tl) j = if j = s.id then 1 else 0 := by
    intro tl htl
    rw [dcount_cons, htl, Nat.zero_add]
    simp only [Event.dispatched.injEq]
    by_cases hj : j = s.id
    · rw [if_pos hj.symm, if_pos hj]
    · rw [if_neg (fun h => hj h.symm), if_neg hj]
  rcases (executeStep_spec env s ctx).2.2.2 with ⟨hev, _⟩ | ⟨hev, _⟩ <;> rw [hev]
  · exact hsingle [] rfl
  · exact hsingle [Event.invoked s.id s.tool] hinv

/-! ### List helper lemmas for finding and replacing steps by id -/

theorem find_id_of_nodup_mem {l : List Step} (h : (l.map (fun s => s.id)).Nodup)
    {s : Step} (hm : s ∈ l) : l.find? (fun t => t.id == s.id) = some s := by
  induction l with
  | nil => cases hm
  | cons a t ih =>
      rcases List.mem_cons.mp hm with rfl | hat
      · exact List.find?_cons_of_pos _ (by simp)
      · have hna : a.id ≠ s.id := by
          intro hcontra
          have : a.id ∈ t.map (fun s => s.id) := hcontra ▸ List.mem_map_of_mem _ hat
          exact (List.nodup_cons.mp h).1 this
        rw [List.find?_cons_of_neg _ (by simpa using hna)]
        exact ih (List.nodup_cons.mp h).2 hat

theorem step_id_unique {l : List Step} (h : (l.map (fun s => s.id)).Nodup)
    {s t : Step} (hs : s ∈ l) (ht : t ∈ l) (hid : s.id = t.id) : s = t :=
  List.inj_on_of_nodup_map h hs ht hid

theorem map_replace_ids (l : List Step) (s' : Step) :
    (l.map fun t => if t.id == s'.id then s' else t).map (fun s => s.id)
      = l.map (fun s => s.id) := by
  rw [List.map_map]
  refine List.map_congr_left fun t _ => ?_
  by_cases ht : t.id = s'.id
  · simp [ht]
  · simp [ht]

theorem find_replace_self (l : List Step) (s' : Step) (hex : ∃ t ∈ l, t.id = s'.id) :
    (l.map fun t => if t.id == s'.id then s' else t).find? (fun t => t.id == s'.id)
      = some s' := by
  induction l with
  | nil => rcases hex with ⟨t, ht, _⟩; cases ht
  | cons a t ih =>
      by_cases ha : a.id = s'.id
      · have h1 : (if a.id == s'.id then s' else a) = s' := by simp [ha]
        simp only [List.map_cons]
        rw [h1]
        exact List.find?_cons_of_pos _ (beq_self_eq_true s'.id)
      · have h1 : (if a.id == s'.id then s' else a) = a := by simp [ha]
        simp only [List.map_cons]
        rw [h1, List.find?_cons_of_neg _ (by simp [ha])]
        rcases hex with ⟨u, hu, huid⟩
        rcases List.mem_cons.mp hu with rfl | hut
        · exact absurd huid ha
        · exact ih ⟨u, hut, huid⟩

theorem find_replace_other (l : List Step) (s' : Step) (j : String) (hj : j ≠ s'.id) :
    (l.map fun t => if t.id == s'.id then s' else t).find? (fun t => t.id == j)
      = l.find? (fun t => t.id == j) := by
  induction l with
  | nil => rfl
  | cons a t ih =>
      by_cases ha : a.id = s'.id
      · have h1 : (if a.id == s'.id then s' else a) = s' := by simp [ha]
        have hid : s'.id ≠ j := fun h => hj h.symm
        have haj : a.id ≠ j := by rw [ha]; exact hid
        simp only [List.map_cons]
        rw [h1, List.find?_cons_of_neg _ (by simp [hid]),
          List.find?_cons_of_neg _ (by simp [haj])]
        exact ih
      · have h1 : (if a.id == s'.id then s' else a) = a := by simp [ha]
        simp only [List.map_cons]
        rw [h1]
        by_cases haj : a.id = j
        · rw [List.find?_cons_of_pos _ (by simp [haj]),
            List.find?_cons_of_pos _ (by simp [haj])]
        · rw [List.find?_cons_of_neg _ (by simp [haj]),
            List.find?_cons_of_neg _ (by simp [haj])]
          exact ih

/-! ### The run invariant

Relative to the original plan `p0` and environment, every step id of
the evolving plan is the original id sequence; each original step is
either still untouched (equal to its original, never dispatched) or has
been dispatched exactly once and sits at a terminal status explained by
`StepCause`; and every recorded invocation belongs to a step that was
not denied approval. -/

def StepInv (env : Env) (st : EngineState) (s0 : Step) : Prop :=
  ∃ s', st.plan.steps.find? (fun t => t.id == s0.id) = some s' ∧
    ((s' = s0 ∧ dcount st.events s0.id = 0) ∨
      (Evolves s0 s' ∧ s'.status.isTerminal = true ∧ StepCause env s0 s' ∧
        dcount st.events s0.id = 1))

def EventsInv (env : Env) (p0 : Plan) (evs : List Event) : Prop :=
  ∀ i tool, Event.invoked i tool ∈ evs →
    ∃ s0 ∈ p0.steps, s0.id = i ∧ tool = s0.tool ∧ ¬ gatedDenied env s0

def Inv (env : Env) (p0 : Plan) (st : EngineState) : Prop :=
  st.plan.stepIds = p0.stepIds ∧
    (∀ s0 ∈ p0.steps, StepInv env st s0) ∧
    EventsInv env p0 st.events

theorem Inv_init (env : Env) (p0 : Plan) (hnodup : p0.stepIds.Nodup) :
    Inv env p0 { plan := p0, ctx := {}, events := [], ticks := [], fueled := true } := by
  refine ⟨rfl, fun s0 hs0 => ⟨s0, ?_, Or.inl ⟨rfl, rfl⟩⟩, fun i tool h => absurd h (by simp)⟩
  exact find_id_of_nodup_mem hnodup hs0

theorem updateStep_stepIds (p : Plan) (s' : Step) :
    (updateStep p s').stepIds = p.stepIds :=
  map_replace_ids p.steps s'

theorem runStepById_fueled (env : Env) (st : EngineState) (i : String) :
    (runStepById env st i).fueled = st.fueled := by
  unfold runStepById
  cases st.plan.steps.find? (fun t => t.id == i) <;> rfl

theorem runStepById_ticks (env : Env) (st : EngineState) (i : String) :
    (runStepById env st i).ticks = st.ticks := by
  unfold runStepById
  cases st.plan.steps.find? (fun t => t.id == i) <;> rfl

theorem runBatch_fueled (env : Env) (ids : List String) (st : EngineState) :
    (runBatch env ids st).fueled = st.fueled := by
  induction ids generalizing st with
  | nil => rfl
  | cons i rest ih => rw [runBatch, List.foldl_cons, ← runBatch, ih, runStepById_fueled]

theorem runBatch_ticks (env : Env) (ids : List String) (st : EngineState) :
    (runBatch env ids st).ticks = st.ticks := by
  induction ids generalizing st with
  | nil => rfl
  | cons i rest ih => rw [runBatch, List.foldl_cons, ← runBatch, ih, runStepById_ticks]

/-- Core preservation: executing one currently-pending step by id keeps
the invariant, and leaves every other step's lookup unchanged. -/
theorem runStepById_inv {env : Env} {p0 : Plan} {st : EngineState}
    (hInv : Inv env p0 st) (i : String)
    (hpend : ∀ s, st.plan.steps.find? (fun t => t.id == i) = some s →
      s.status = StepStatus.pending) :
    Inv env p0 (runStepById env st i) ∧
      (∀ j, j ≠ i →
        (runStepById env st i).plan.steps.find? (fun t => t.id == j)
          = st.plan.steps.find? (fun t => t.id == j)) := by
  obtain ⟨hids, hsteps, hev⟩ := hInv
  cases hfind : st.plan.steps.find? (fun t => t.id == i) with
  | none =>
      have hnone : runStepById env st i = st := by
        unfold runStepById
        rw [hfind]
      rw [hnone]
      exact ⟨⟨hids, hsteps, hev⟩, fun j _ => rfl⟩
  | some s =>
      have hsid : s.id = i := by
        have := List.find?_some hfind
        simpa using this
      have hsmem : s ∈ st.plan.steps := List.mem_of_find?_eq_some hfind
      have hspend : s.status = StepStatus.pending := hpend s hfind
      obtain ⟨hevolve, hterm, hcause, hevents⟩ := executeStep_spec env s st.ctx
      have hoid : (executeStep env s st.ctx).step.id = s.id := hevolve.1
      have hgoal : runStepById env st i =
          { st with plan := updateStep st.plan (executeStep env s st.ctx).step,
                    ctx := (executeStep env s st.ctx).ctx,
                    events := st.events ++ (executeStep env s st.ctx).events } := by
        unfold runStepById
        rw [hfind]
      rw [hgoal]
      have hfind_other : ∀ j, j ≠ i →
          (updateStep st.plan (executeStep env s st.ctx).step).steps.find?
              (fun t => t.id == j)
            = st.plan.steps.find? (fun t => t.id == j) := by
        intro j hj
        unfold updateStep
        exact find_replace_other st.plan.steps _ j (by rw [hoid, hsid]; exact hj)
      refine ⟨⟨?_, ?_, ?_⟩, fun j hj => hfind_other j hj⟩
      · rw [updateStep_stepIds]
        exact hids
      · intro s0 hs0
        obtain ⟨s1, hfind1, hcases⟩ := hsteps s0 hs0
        by_cases hc : s0.id = i
        · have hfind1i : st.plan.steps.find? (fun t => t.id == i) = some s1 := by
            rw [← hc]
            exact hfind1
          have hs1 : s1 = s := by
            rw [hfind1i] at hfind
            exact Option.some.inj hfind
          rcases hcases with ⟨heq, hdc⟩ | ⟨_, hterm1, _, _⟩
          · -- s0 untouched, so s = s0 is executed now
        
            have hss0 : s = s0 := by rw [← hs1, heq]
            refine ⟨(executeStep env s st.ctx).step, ?_, Or.inr ?_⟩
            · show (updateStep st.plan (executeStep env s st.ctx).step).steps.find?
                  (fun t => t.id == s0.id) = _
              unfold updateStep
              have hexid : (executeStep env s st.ctx).step.id = s0.id := by
                rw [hoid, hss0]
              rw [← hexid]
              exact find_replace_self st.plan.steps _
                ⟨s, hsmem, by rw [hexid, hss0]⟩
            · rw [← hss0]
              refine ⟨hevolve, hterm, hcause, ?_⟩
              rw [dcount_append, hss0, hdc, Nat.zero_add, ← hss0, executeStep_dcount,
                if_pos rfl]
          · -- s1 = s is both terminal and pending: impossible
            rw [hs1, hspend] at hterm1
            cases hterm1
        · refine ⟨s1, ?_, ?_⟩
          · rw [hfind_other s0.id hc]
            exact hfind1
          · have hdz : dcount (executeStep env s st.ctx).events s0.id = 0 := by
              rw [executeStep_dcount, if_neg (by rw [hsid]; exact hc)]
            rcases hcases with ⟨heq, hdc⟩ | ⟨h1, h2, h3, hdc⟩
            · exact Or.inl ⟨heq, by rw [dcount_append, hdc, hdz]⟩
            · exact Or.inr ⟨h1, h2, h3, by rw [dcount_append, hdc, hdz]⟩
      · intro i' tool h
        rcases List.mem_append.mp h with hold | hnew
        · exact hev i' tool hold
        · rcases hevents with ⟨heq, _⟩ | ⟨heq, hnd⟩
          · rw [heq] at hnew
            rcases List.mem_cons.mp hnew with habs | habs
            · cases habs
            · cases habs
          · rw [heq] at hnew
            rcases List.mem_cons.mp hnew with habs | hnew2
            · cases habs
            · rcases List.mem_cons.mp hnew2 with hinv2 | habs
              · cases hinv2
                -- the invoked step is s; recover its original from p0
                have hsid0 : s.id ∈ p0.stepIds := by
                  have : s.id ∈ st.plan.stepIds :=
                    List.mem_map_of_mem (fun t => t.id) hsmem
                  rw [hids] at this
                  exact this
                obtain ⟨s0, hs0mem, hs0id⟩ := List.mem_map.mp hsid0
                obtain ⟨s1, hfind1, hcases⟩ := hsteps s0 hs0mem
                have hfind1i : st.plan.steps.find? (fun t => t.id == i) = some s1 := by
                  rw [← hsid, ← hs0id] at hfind ⊢
                  exact hfind1
                have hs1 : s1 = s := by
                  rw [hfind1i] at hfind
                  exact Option.some.inj hfind
                rcases hcases with ⟨heq0, _⟩ | ⟨_, hterm1, _, _⟩
                · have hss0 : s = s0 := by rw [← hs1, heq0]
                  exact ⟨s0, hs0mem, hs0id, by rw [← hss0], by rw [← hss0]; exact hnd⟩
                · rw [hs1, hspend] at hterm1
                  cases hterm1
              · cases habs

theorem runBatch_inv {env : Env} {p0 : Plan} (ids : List String) :
    ∀ st : EngineState, Inv env p0 st → ids.Nodup →
      (∀ i ∈ ids, ∀ s, st.plan.steps.find? (fun t => t.id == i) = some s →
        s.status = StepStatus.pending) →
      Inv env p0 (runBatch env ids st) := by
  induction ids with
  | nil =>
      intro st hInv _ _
      exact hInv
  | cons i rest ih =>
      intro st hInv hnd hpend
      have hfold : runBatch env (i :: rest) st = runBatch env rest (runStepById env st i) :=
        rfl
      rw [hfold]
      obtain ⟨hInv1, hother⟩ := runStepById_inv hInv i (hpend i (List.mem_cons_self i rest))
      refine ih _ hInv1 (List.nodup_cons.mp hnd).2 ?_
      intro j hj s hfind
      have hji : j ≠ i := fun h => (List.nodup_cons.mp hnd).1 (h ▸ hj)
      rw [hother j hji] at hfind
      exact hpend j (List.mem_cons_of_mem i hj) s hfind

/-! ### Termination of the scheduling loop -/

theorem countP_lt_of_mem {α : Type} {l : List α} {p q : α → Bool}
    (hmono : ∀ a ∈ l, p a = true → q a = true) {a : α} (ha : a ∈ l)
    (hq : q a = true) (hp : p a = false) : l.countP p < l.countP q := by
  induction l with
  | nil => cases ha
  | cons b t ih =>
      rw [List.countP_cons, List.countP_cons]
      rcases List.mem_cons.mp ha with rfl | hat
      · rw [hp, hq]
        simp only [Bool.false_eq_true, if_false, if_true, Nat.add_zero]
        exact Nat.lt_succ_of_le
          (List.countP_mono_left fun x hx => hmono x (List.mem_cons_of_mem a hx))
      · have hb : (if p b = true then 1 else 0) ≤ (if q b = true then 1 else 0) := by
          by_cases hpb : p b = true
          · rw [if_pos hpb, if_pos (hmono b (List.mem_cons_self b t) hpb)]
          · rw [if_neg hpb]
            exact Nat.zero_le _
        exact Nat.add_lt_add_of_lt_of_le
          (ih (fun x hx h => hmono x (List.mem_cons_of_mem b hx) h) hat) hb

theorem pendingCount_eq_countP (p : Plan) :
    pendingCount p = p.steps.countP (fun s => s.status.isPending) := by
  unfold pendingCount
  rw [List.countP_eq_length_filter]

theorem pendingCount_update_le (p : Plan) (s' : Step)
    (hterm : s'.status.isTerminal = true) :
    pendingCount (updateStep p s') ≤ pendingCount p := by
  rw [pendingCount_eq_countP, pendingCount_eq_countP]
  show (p.steps.map _).countP _ ≤ _
  rw [List.countP_map]
  apply List.countP_mono_left
  intro t _ h
  by_cases ht : t.id = s'.id
  · exfalso
    have hrepl : (if t.id == s'.id then s' else t) = s' := by simp [ht]
    simp only [Function.comp, hrepl, isPending_eq_false_of_isTerminal hterm] at h
    exact Bool.false_ne_true h
  · have hrepl : (if t.id == s'.id then s' else t) = t := by simp [ht]
    simp only [Function.comp, hrepl] at h
    exact h

theorem pendingCount_update_lt (p : Plan) (s s' : Step)
    (hmem : s ∈ p.steps) (hpend : s.status.isPending = true)
    (hid : s'.id = s.id) (hterm : s'.status.isTerminal = true) :
    pendingCount (updateStep p s') < pendingCount p := by
  rw [pendingCount_eq_countP, pendingCount_eq_countP]
  show (p.steps.map _).countP _ < _
  rw [List.countP_map]
  refine countP_lt_of_mem ?_ hmem hpend ?_
  · intro t _ h
    by_cases ht : t.id = s'.id
    · exfalso
      have hrepl : (if t.id == s'.id then s' else t) = s' := by simp [ht]
      simp only [Function.comp, hrepl, isPending_eq_false_of_isTerminal hterm] at h
      exact Bool.false_ne_true h
    · have hrepl : (if t.id == s'.id then s' else t) = t := by simp [ht]
      simp only [Function.comp, hrepl] at h
      exact h
  · have hrepl : (if s.id == s'.id then s' else s) = s' := by simp [hid.symm]
    simp only [Function.comp, hrepl]
    exact isPending_eq_false_of_isTerminal hterm

theorem runStepById_pendingCount_le (env : Env) (st : EngineState) (i : String) :
    pendingCount (runStepById env st i).plan ≤ pendingCount st.plan := by
  unfold runStepById
  cases hfind : st.plan.steps.find? (fun t => t.id == i) with
  | none => exact Nat.le_refl _
  | some s => exact pendingCount_update_le _ _ (executeStep_spec env s st.ctx).2.1

theorem runStepById_stepIds (env : Env) (st : EngineState) (i : String) :
    (runStepById env st i).plan.stepIds = st.plan.stepIds := by
  unfold runStepById
  cases hfind : st.plan.steps.find? (fun t => t.id == i) with
  | none => rfl
  | some s => exact updateStep_stepIds _ _

theorem runBatch_pendingCount_le (env : Env) (ids : List String) :
    ∀ st : EngineState, pendingCount (runBatch env ids st).plan ≤ pendingCount st.plan := by
  induction ids with
  | nil => intro st; exact Nat.le_refl _
  | cons i rest ih =>
      intro st
      have hfold : runBatch env (i :: rest) st = runBatch env rest (runStepById env st i) :=
        rfl
      rw [hfold]
      exact Nat.le_trans (ih _) (runStepById_pendingCount_le env st i)

theorem runBatch_stepIds (env : Env) (ids : List String) :
    ∀ st : EngineState, (runBatch env ids st).plan.stepIds = st.plan.stepIds := by
  induction ids with
  | nil => intro st; rfl
  | cons i rest ih =>
      intro st
      have hfold : runBatch env (i :: rest) st = runBatch env rest (runStepById env st i) :=
        rfl
      rw [hfold, ih, runStepById_stepIds]

theorem readySteps_mem {plan : Plan} {s : Step} (h : s ∈ readySteps plan) :
    s ∈ plan.steps :=
  List.mem_of_mem_filter h

theorem readySteps_pending {plan : Plan} {s : Step} (h : s ∈ readySteps plan) :
    s.status.isPending = true ∧ allDependenciesSatisfied s plan = true := by
  simpa using List.of_mem_filter h

theorem runBatch_ready_pendingCount_lt (env : Env) (st : EngineState)
    (hnodup : st.plan.stepIds.Nodup) (hne : readySteps st.plan ≠ []) :
    pendingCount
        (runBatch env ((readySteps st.plan).map (fun s => s.id)) st).plan
      < pendingCount st.plan := by
  obtain ⟨s, rest, hcons⟩ := List.exists_cons_of_ne_nil hne
  have hsready : s ∈ readySteps st.plan := by
    rw [hcons]
    exact List.mem_cons_self s rest
  have hsmem : s ∈ st.plan.steps := readySteps_mem hsready
  have hspend : s.status.isPending = true := (readySteps_pending hsready).1
  rw [hcons, List.map_cons]
  have hfold : runBatch env (s.id :: rest.map (fun s => s.id)) st
      = runBatch env (rest.map (fun s => s.id)) (runStepById env st s.id) := rfl
  rw [hfold]
  refine Nat.lt_of_le_of_lt (runBatch_pendingCount_le env _ _) ?_
  have hone : runStepById env st s.id =
      { st with plan := updateStep st.plan (executeStep env s st.ctx).step,
                ctx := (executeStep env s st.ctx).ctx,
                events := st.events ++ (executeStep env s st.ctx).events } := by
    unfold runStepById
    rw [find_id_of_nodup_mem hnodup hsmem]
  rw [hone]
  exact pendingCount_update_lt _ s _ hsmem hspend (executeStep_spec env s st.ctx).1.1
    (executeStep_spec env s st.ctx).2.1

theorem executeLoop_fueled {env : Env} :
    ∀ (fuel : Nat) (st : EngineState), st.plan.stepIds.Nodup →
      pendingCount st.plan < fuel → (executeLoop env fuel st).fueled = st.fueled := by
  intro fuel
  induction fuel with
  | zero =>
      intro st _ hlt
      exact absurd hlt (Nat.not_lt_zero _)
  | succ fuel ih =>
      intro st hnodup hlt
      by_cases hrem : hasRemainingSteps st.plan = true
      · by_cases hready : (readySteps st.plan).isEmpty = true
        · simp only [executeLoop]
          rw [if_pos hrem, if_pos hready]
        · simp only [executeLoop]
          rw [if_pos hrem, if_neg hready]
          have hne : readySteps st.plan ≠ [] := fun h => hready (by rw [h]; rfl)
          set st1 := runBatch env ((readySteps st.plan).map (fun s => s.id)) st with hst1
          have hnodup1 : st1.plan.stepIds.Nodup := by
            rw [hst1, runBatch_stepIds]
            exact hnodup
          have hlt1 : pendingCount st1.plan < fuel := by
            have hdec := runBatch_ready_pendingCount_lt env st hnodup hne
            rw [← hst1] at hdec
            exact Nat.lt_of_lt_of_le hdec (Nat.lt_succ_iff.mp hlt)
          have := ih { st1 with ticks := st1.ticks ++ [(readySteps st.plan).map (fun s => s.id)] }
            (by exact hnodup1) (by exact hlt1)
          rw [this]
          rw [hst1, runBatch_fueled]
      · simp only [executeLoop]
        rw [if_neg hrem]

theorem executeLoop_exit {env : Env} :
    ∀ (fuel : Nat) (st : EngineState), (executeLoop env fuel st).fueled = true →
      st.fueled = true →
      hasRemainingSteps (executeLoop env fuel st).plan = false ∨
        readySteps (executeLoop env fuel st).plan = [] := by
  intro fuel
  induction fuel with
  | zero =>
      intro st hres _
      exact absurd hres (by simp [executeLoop])
  | succ fuel ih =>
      intro st hres hst
      by_cases hrem : hasRemainingSteps st.plan = true
      · by_cases hready : (readySteps st.plan).isEmpty = true
        · have hval : executeLoop env (fuel + 1) st = st := by
            simp only [executeLoop]
            rw [if_pos hrem, if_pos hready]
          rw [hval]
          exact Or.inr (List.isEmpty_iff.mp hready)
        · have hval : executeLoop env (fuel + 1) st =
              executeLoop env fuel
                { runBatch env ((readySteps st.plan).map (fun s => s.id)) st with
                  ticks := (runBatch env ((readySteps st.plan).map (fun s => s.id)) st).ticks
                    ++ [(readySteps st.plan).map (fun s => s.id)] } := by
            simp only [executeLoop]
            rw [if_pos hrem, if_neg hready]
          rw [hval] at hres ⊢
          refine ih _ hres ?_
          show (runBatch env ((readySteps st.plan).map (fun s => s.id)) st).fueled = true
          rw [runBatch_fueled]
          exact hst
      · have hval : executeLoop env (fuel + 1) st = st := by
          simp only [executeLoop]
          rw [if_neg hrem]
        rw [hval]
        cases hb : hasRemainingSteps st.plan with
        | false => exact Or.inl rfl
        | true => exact absurd hb hrem

theorem ready_ids_nodup {st : EngineState} (hnodup : st.plan.stepIds.Nodup) :
    ((readySteps st.plan).map (fun s => s.id)).Nodup := by
  have h : ((readySteps st.plan).map (fun s => s.id)).Sublist st.plan.stepIds :=
    (List.filter_sublist st.plan.steps).map (fun s => s.id)
  exact h.nodup hnodup

theorem ready_ids_pending {st : EngineState} (hnodup : st.plan.stepIds.Nodup) :
    ∀ i ∈ (readySteps st.plan).map (fun s => s.id), ∀ s,
      st.plan.steps.find? (fun t => t.id == i) = some s →
        s.status = StepStatus.pending := by
  intro i hi s hfind
  obtain ⟨u, hu, huid⟩ := List.mem_map.mp hi
  have humem : u ∈ st.plan.steps := readySteps_mem hu
  have hupend : u.status.isPending = true := (readySteps_pending hu).1
  have hufind : st.plan.steps.find? (fun t => t.id == u.id) = some u :=
    find_id_of_nodup_mem hnodup humem
  rw [huid] at hufind
  rw [hufind] at hfind
  have hsu : s = u := (Option.some.inj hfind).symm
  rw [hsu]
  cases hst : u.status <;> simp_all [StepStatus.isPending]

theorem executeLoop_inv {env : Env} {p0 : Plan} (hnodup0 : p0.stepIds.Nodup) :
    ∀ (fuel : Nat) (st : EngineState), Inv env p0 st →
      Inv env p0 (executeLoop env fuel st) := by
  intro fuel
  induction fuel with
  | zero =>
      intro st hInv
      exact hInv
  | succ fuel ih =>
      intro st hInv
      by_cases hrem : hasRemainingSteps st.plan = true
      · by_cases hready : (readySteps st.plan).isEmpty = true
        · have hval : executeLoop env (fuel + 1) st = st := by
            simp only [executeLoop]
            rw [if_pos hrem, if_pos hready]
          rw [hval]
          exact hInv
        · have hval : executeLoop env (fuel + 1) st =
              executeLoop env fuel
                { runBatch env ((readySteps st.plan).map (fun s => s.id)) st with
                  ticks := (runBatch env ((readySteps st.plan).map (fun s => s.id)) st).ticks
                    ++ [(readySteps st.plan).map (fun s => s.id)] } := by
            simp only [executeLoop]
            rw [if_pos hrem, if_neg hready]
          rw [hval]
          have hnodup : st.plan.stepIds.Nodup := hInv.1 ▸ hnodup0
          have hbatch := runBatch_inv ((readySteps st.plan).map (fun s => s.id)) st hInv
            (ready_ids_nodup hnodup) (ready_ids_pending hnodup)
          exact ih _ hbatch
      · have hval : executeLoop env (fuel + 1) st = st := by
          simp only [executeLoop]
          rw [if_neg hrem]
        rw [hval]
        exact hInv

/-- In each tick the engine dispatches the id list of the full ready
set; every recorded tick is a sublist of the plan's id sequence. -/
theorem executeLoop_ticks_sublist {env : Env} {p0 : Plan} (hnodup0 : p0.stepIds.Nodup) :
    ∀ (fuel : Nat) (st : EngineState), Inv env p0 st →
      (∀ ts ∈ st.ticks, ts.Sublist p0.stepIds) →
      ∀ ts ∈ (executeLoop env fuel st).ticks, ts.Sublist p0.stepIds := by
  intro fuel
  induction fuel with
  | zero =>
      intro st _ hts ts h
      exact hts ts h
  | succ fuel ih =>
      intro st hInv hts
      by_cases hrem : hasRemainingSteps st.plan = true
      · by_cases hready : (readySteps st.plan).isEmpty = true
        · have hval : executeLoop env (fuel + 1) st = st := by
            simp only [executeLoop]
            rw [if_pos hrem, if_pos hready]
          rw [hval]
          exact hts
        · have hval : executeLoop env (fuel + 1) st =
              executeLoop env fuel
                { runBatch env ((readySteps st.plan).map (fun s => s.id)) st with
                  ticks := (runBatch env ((readySteps st.plan).map (fun s => s.id)) st).ticks
                    ++ [(readySteps st.plan).map (fun s => s.id)] } := by
            simp only [executeLoop]
            rw [if_pos hrem, if_neg hready]
          rw [hval]
          have hnodup : st.plan.stepIds.Nodup := hInv.1 ▸ hnodup0
          have hbatch := runBatch_inv ((readySteps st.plan).map (fun s => s.id)) st hInv
            (ready_ids_nodup hnodup) (ready_ids_pending hnodup)
          refine ih _ hbatch ?_
          intro ts h
          rw [runBatch_ticks] at h
          rcases List.mem_append.mp h with hold | hnew
          · exact hts ts hold
          · have : ts = (readySteps st.plan).map (fun s => s.id) := by
              rcases List.mem_cons.mp hnew with h1 | h2
              · exact h1
              · cases h2
            rw [this]
            have hsub : ((readySteps st.plan).map (fun s => s.id)).Sublist
                st.plan.stepIds :=
              (List.filter_sublist st.plan.steps).map (fun s => s.id)
            rw [hInv.1] at hsub
            exact hsub
      · have hval : executeLoop env (fuel + 1) st = st := by
          simp only [executeLoop]
          rw [if_neg hrem]
        rw [hval]
        exact hts

theorem executeLoop_ticks_extend {env : Env} :
    ∀ (fuel : Nat) (st : EngineState),
      ∃ more, (executeLoop env fuel st).ticks = st.ticks ++ more := by
  intro fuel
  induction fuel with
  | zero =>
      intro st
      exact ⟨[], (List.append_nil _).symm⟩
  | succ fuel ih =>
      intro st
      by_cases hrem : hasRemainingSteps st.plan = true
      · by_cases hready : (readySteps st.plan).isEmpty = true
        · have hval : executeLoop env (fuel + 1) st = st := by
            simp only [executeLoop]
            rw [if_pos hrem, if_pos hready]
          rw [hval]
          exact ⟨[], (List.append_nil _).symm⟩
        · have hval : executeLoop env (fuel + 1) st =
              executeLoop env fuel
                { runBatch env ((readySteps st.plan).map (fun s => s.id)) st with
                  ticks := (runBatch env ((readySteps st.plan).map (fun s => s.id)) st).ticks
                    ++ [(readySteps st.plan).map (fun s => s.id)] } := by
            simp only [executeLoop]
            rw [if_pos hrem, if_neg hready]
          rw [hval]
          obtain ⟨more, hmore⟩ := ih
            { runBatch env ((readySteps st.plan).map (fun s => s.id)) st with
              ticks := (runBatch env ((readySteps st.plan).map (fun s => s.id)) st).ticks
                ++ [(readySteps st.plan).map (fun s => s.id)] }
          rw [hmore]
          refine ⟨[(readySteps st.plan).map (fun s => s.id)] ++ more, ?_⟩
          have hbt : ((runBatch env ((readySteps st.plan).map (fun s => s.id)) st).ticks
              ++ [(readySteps st.plan).map (fun s => s.id)]) ++ more
              = st.ticks ++ ([(readySteps st.plan).map (fun s => s.id)] ++ more) := by
            rw [runBatch_ticks, List.append_assoc]
          exact hbt
      · have hval : executeLoop env (fuel + 1) st = st := by
          simp only [executeLoop]
          rw [if_neg hrem]
        rw [hval]
        exact ⟨[], (List.append_nil _).symm⟩

/-! ### Packaged facts about a full `execute` run -/

theorem execute_inv (env : Env) (p : Plan) (hnodup : p.stepIds.Nodup) :
    Inv env p (execute env p) :=
  executeLoop_inv hnodup _ _ (Inv_init env p hnodup)

theorem execute_fueled (env : Env) (p : Plan) (hnodup : p.stepIds.Nodup) :
    (execute env p).fueled = true :=
  executeLoop_fueled _ _ hnodup (Nat.lt_succ_self _)

theorem execute_exit (env : Env) (p : Plan) (hnodup : p.stepIds.Nodup) :
    hasRemainingSteps (execute env p).plan = false ∨
      readySteps (execute env p).plan = [] :=
  executeLoop_exit _ _ (execute_fueled env p hnodup) rfl

/-- Every step of the final plan is the image of an original step under
the per-step invariant lookup. -/
theorem execute_final_mem (env : Env) (p : Plan) (hnodup : p.stepIds.Nodup) :
    ∀ s' ∈ (execute env p).plan.steps, ∃ s0 ∈ p.steps,
      (execute env p).plan.steps.find? (fun t => t.id == s0.id) = some s' := by
  intro s' hs'
  obtain ⟨hids, hsteps, _⟩ := execute_inv env p hnodup
  have hid : s'.id ∈ p.stepIds := by
    have : s'.id ∈ (execute env p).plan.stepIds :=
      List.mem_map_of_mem (fun t => t.id) hs'
    rw [hids] at this
    exact this
  obtain ⟨s0, hs0, hs0id⟩ := List.mem_map.mp hid
  obtain ⟨s1, hfind1, _⟩ := hsteps s0 hs0
  have hnodup' : (execute env p).plan.stepIds.Nodup := hids ▸ hnodup
  have hfind2 : (execute env p).plan.steps.find? (fun t => t.id == s'.id) = some s' :=
    find_id_of_nodup_mem hnodup' hs'
  rw [← hs0id] at hfind2
  exact ⟨s0, hs0, hfind2⟩

/-! ### Claim-level helped facts -/

/-- The inner test of `allDependenciesSatisfied` for one dependency. -/
def depCompleted (plan : Plan) (d : String) : Bool :=
  match plan.steps.find? (fun t => t.id == d) with
  | some t => t.status.isCompleted
  | none => false

theorem allDeps_eq_all_depCompleted (s : Step) (plan : Plan) :
    allDependenciesSatisfied s plan = s.dependsOn.all (fun d => depCompleted plan d) :=
  rfl

/-- The tool invocation for this step's name and arguments does not
succeed (returns `ok:false` or throws). -/
def toolFailsB (env : Env) (s : Step) : Bool :=
  match env.toolExec s.tool s.args with
  | ToolOutcome.ret r => !r.ok
  | ToolOutcome.thrown _ => true

def toolFails (env : Env) (s : Step) : Prop := toolFailsB env s = true

theorem toolFails_of_ret_false {env : Env} {s : Step} {r : StepResult}
    (hm : env.toolExec s.tool s.args = ToolOutcome.ret r) (hok : r.ok = false) :
    toolFails env s := by
  unfold toolFails toolFailsB
  rw [hm]
  show (!r.ok) = true
  rw [hok]
  rfl

theorem toolFails_of_thrown {env : Env} {s : Step} {e : String}
    (hm : env.toolExec s.tool s.args = ToolOutcome.thrown e) : toolFails env s := by
  unfold toolFails toolFailsB
  rw [hm]

theorem ret_ok_of_not_toolFails {env : Env} {s : Step} {r : StepResult}
    (hm : env.toolExec s.tool s.args = ToolOutcome.ret r) (h : ¬ toolFails env s) :
    r.ok = true := by
  cases hok : r.ok
  · exact absurd (toolFails_of_ret_false hm hok) h
  · rfl

/-- A step with no prerequisites starts no dependency path. -/
theorem no_depPath_of_empty (p : Plan) (a : String)
    (hempty : ∀ s ∈ p.steps, s.id = a → s.dependsOn = []) :
    ∀ b, ¬ DepPath p a b := by
  intro b hpath
  have hdd : ∃ c, dependsDirect p a c := by
    cases hpath with
    | single h => exact ⟨_, h⟩
    | cons h _ => exact ⟨_, h⟩
  obtain ⟨c, s, hs, hsid, hc⟩ := hdd
  rw [hempty s hs hsid] at hc
  cases hc

theorem depsResolvable_spec {p : Plan} (h : depsResolvable p = true) :
    ∀ s ∈ p.steps, ∀ d ∈ s.dependsOn, ∃ t ∈ p.steps, t.id = d ∧
      p.steps.find? (fun u => u.id == d) = some t := by
  intro s hs d hd
  have h1 := List.all_eq_true.mp h s hs
  have h2 := List.all_eq_true.mp h1 d hd
  obtain ⟨t, ht⟩ := Option.isSome_iff_exists.mp h2
  exact ⟨t, List.mem_of_find?_eq_some ht, by simpa using List.find?_some ht, ht⟩

/-- At loop exit a step left `pending` has some direct dependency whose
final status is not `completed`. -/
theorem final_pending_dep_not_completed (env : Env) (p : Plan)
    (hnodup : p.stepIds.Nodup) :
    ∀ s' ∈ (execute env p).plan.steps, s'.status = StepStatus.pending →
      ∃ d ∈ s'.dependsOn, depCompleted (execute env p).plan d = false := by
  intro s' hs' hpend
  have hexit := execute_exit env p hnodup
  rcases hexit with hdone | hempty
  · exfalso
    have hnotany :
        ¬ ((execute env p).plan.steps.any (fun s => !s.status.isTerminal) = true) := by
      rw [show ((execute env p).plan.steps.any (fun s => !s.status.isTerminal))
          = hasRemainingSteps (execute env p).plan from rfl, hdone]
      exact Bool.false_ne_true
    apply hnotany
    refine List.any_eq_true.mpr ⟨s', hs', ?_⟩
    rw [hpend]
    rfl
  · have hnotready : ¬ (s'.status.isPending && allDependenciesSatisfied s' (execute env p).plan) = true := by
      have := List.filter_eq_nil_iff.mp hempty
      exact this s' hs'
    have hpendb : s'.status.isPending = true := by rw [hpend]; rfl
    have hdeps : allDependenciesSatisfied s' (execute env p).plan = false := by
      cases hb : allDependenciesSatisfied s' (execute env p).plan
      · rfl
      · exact absurd (by rw [hpendb, hb]; rfl) hnotready
    rw [allDeps_eq_all_depCompleted] at hdeps
    by_contra hno
    push_neg at hno
    have hall : s'.dependsOn.all (fun d => depCompleted (execute env p).plan d) = true := by
      refine List.all_eq_true.mpr fun d hd => ?_
      cases hb : depCompleted (execute env p).plan d
      · exact absurd hb (hno d hd)
      · rfl
    rw [hall] at hdeps
    cases hdeps

/-- Every final step is either still pending or terminal with a cause,
tied to its original step. -/
theorem final_status_cases (env : Env) (p : Plan) (hvalid : ValidPlan p) :
    ∀ s' ∈ (execute env p).plan.steps, ∃ s0 ∈ p.steps, s0.id = s'.id ∧
      (s' = s0 ∨ (s'.status.isTerminal = true ∧ StepCause env s0 s')) := by
  intro s' hs'
  obtain ⟨hnodup, _, _, hfresh⟩ := hvalid
  obtain ⟨s0, hs0, hfind⟩ := execute_final_mem env p hnodup s' hs'
  obtain ⟨_, hsteps, _⟩ := execute_inv env p hnodup
  obtain ⟨s1, hfind1, hcases⟩ := hsteps s0 hs0
  rw [hfind] at hfind1
  have hs1 : s1 = s' := (Option.some.inj hfind1).symm
  rcases hcases with ⟨heq, _⟩ | ⟨hev, hterm, hcause, _⟩
  · exact ⟨s0, hs0, by rw [← heq, hs1], Or.inl (by rw [← hs1, heq])⟩
  · rw [hs1] at hev hterm hcause
    exact ⟨s0, hs0, hev.1.symm, Or.inr ⟨hterm, hcause⟩⟩

/-! ### Claim C1 -/

/-- C1, counterexample environment: tool `read_file` fails, every other
tool succeeds; no approvals required. -/
def c1Env : Env :=
  { requiresApproval := fun _ => false
    requestApproval := fun _ => true
    toolExec := fun tool _ =>
      if tool == "read_file" then ToolOutcome.ret { ok := false, error := some "ENOENT" }
      else ToolOutcome.ret { ok := true, value := JVal.str "done" } }

/-- C1, counterexample plan: `B` depends on the failing step `A`. -/
def c1Plan : Plan :=
  { steps :=
      [ { id := "A", order := 1, tool := "read_file" },
        { id := "B", order := 2, tool := "write_file", dependsOn := ["A"] } ] }

/-- C1 counterexample: on the valid plan `A ← B` where `A`'s tool
fails, the run finishes with `B` still `pending` — a non-terminal
status — so "every step reaches a terminal status" is false of the
code: dependents of a failed step are never driven to a terminal
status. -/
theorem hb_c1_counterexample :
    ValidPlan c1Plan ∧
      ((execute c1Env c1Plan).plan.steps.map (fun s => (s.id, s.status)))
        = [("A", StepStatus.failed), ("B", StepStatus.pending)] ∧
      ¬ (∀ s ∈ (execute c1Env c1Plan).plan.steps, s.status.isTerminal = true) := by
  refine ⟨⟨by decide, by decide, ⟨fun i => if i = "A" then 0 else 1, by decide⟩, by decide⟩,
    by decide, by decide⟩

/-- C1 (amended): for every valid plan, no step is dispatched twice
(each id records at most one `running` transition), a step is terminal
exactly when it was dispatched (hence reaches a terminal status at most
once), and every step ends either terminal or still `pending` — but
steps whose dependencies fail or are skipped remain `pending`, so not
every step reaches a terminal status. -/
theorem hb_c1_amended (env : Env) (p : Plan) (hvalid : ValidPlan p) :
    ∀ s0 ∈ p.steps, ∃ s',
      (execute env p).plan.steps.find? (fun t => t.id == s0.id) = some s' ∧
      dcount (execute env p).events s0.id ≤ 1 ∧
      (s'.status.isTerminal = true ↔ dcount (execute env p).events s0.id = 1) ∧
      (s'.status = StepStatus.pending ∨ s'.status.isTerminal = true) := by
  intro s0 hs0
  obtain ⟨hnodup, _, _, hfresh⟩ := hvalid
  obtain ⟨_, hsteps, _⟩ := execute_inv env p hnodup
  obtain ⟨s', hfind, hcases⟩ := hsteps s0 hs0
  rcases hcases with ⟨heq, hdc⟩ | ⟨_, hterm, _, hdc⟩
  · refine ⟨s', hfind, ?_, ?_, ?_⟩
    · rw [hdc]
      exact Nat.zero_le 1
    · rw [hdc, heq, (hfresh s0 hs0).1]
      constructor
      · intro ht
        exact absurd ht (by decide)
      · intro h01
        exact absurd h01 (by decide)
    · left
      rw [heq]
      exact (hfresh s0 hs0).1
  · refine ⟨s', hfind, Nat.le_of_eq hdc, ?_, Or.inr hterm⟩
    exact ⟨fun _ => hdc, fun _ => hterm⟩

/-- C1 witness plan: one trivially-succeeding independent step. -/
def c1WStep : Step := { id := "W", tool := "write_file" }

def c1WPlan : Plan := { steps := [c1WStep] }

theorem hb_c1_witness :
    ∃ s', (execute c1Env c1WPlan).plan.steps.find? (fun t => t.id == c1WStep.id) = some s' ∧
      dcount (execute c1Env c1WPlan).events c1WStep.id ≤ 1 ∧
      (s'.status.isTerminal = true ↔ dcount (execute c1Env c1WPlan).events c1WStep.id = 1) ∧
      (s'.status = StepStatus.pending ∨ s'.status.isTerminal = true) :=
  hb_c1_amended c1Env c1WPlan
    ⟨by decide, by decide, ⟨fun _ => 0, by decide⟩, by decide⟩ c1WStep (by decide)

/-! ### Claim C2 -/

/-- C2 environment: tool `resize_image` fails; everything else
succeeds; no approvals. -/
def c2Env : Env :=
  { requiresApproval := fun _ => false
    requestApproval := fun _ => true
    toolExec := fun tool _ =>
      if tool == "resize_image" then
        ToolOutcome.ret { ok := false, error := some "cannot resize" }
      else ToolOutcome.ret { ok := true, value := JVal.str "done" } }

def c2C : Step := { id := "C", order := 3, tool := "write_file" }

/-- C2 plan: `A` fails, `B` depends on `A`, `C` is independent. -/
def c2Plan : Plan :=
  { steps :=
      [ { id := "A", order := 1, tool := "resize_image" },
        { id := "B", order := 2, tool := "write_file", dependsOn := ["A"] },
        c2C ] }

/-- C2 counterexample: when non-critical `A` fails, its dependent `B`
does NOT end in status `skipped` with reason "blocked by failed
dependency" — it stays `pending` with no result at all (the reason
string appears nowhere in the code); the independent step `C` does
complete. -/
theorem hb_c2_counterexample :
    ValidPlan c2Plan ∧
      ((execute c2Env c2Plan).plan.steps.map (fun s => (s.id, s.status, s.result)))
        = [("A", StepStatus.failed,
              some { ok := false, value := JVal.undef, error := some "cannot resize" }),
           ("B", StepStatus.pending, none),
           ("C", StepStatus.completed,
              some { ok := true, value := JVal.str "done", error := none })] ∧
      ¬ (∀ s ∈ (execute c2Env c2Plan).plan.steps, s.id = "B" →
            s.status = StepStatus.skipped) := by
  refine ⟨⟨by decide, by decide, ⟨fun i => if i = "B" then 1 else 0, by decide⟩, by decide⟩,
    by decide, by decide⟩

/-- C2 (amended): dependents of a failed step are not marked `skipped`
with any reason — at run end a step is left `pending` only when one of
its direct dependencies did not reach `completed`; and every step whose
own tool succeeds, that is not approval-gated, and that has no
dependency path to any tool-failing step, reaches `completed`
(independent branches are unaffected). -/
theorem hb_c2_amended (env : Env) (p : Plan) (hvalid : ValidPlan p)
    (hnogate : ∀ s ∈ p.steps, env.requiresApproval s.running = false) :
    (∀ s' ∈ (execute env p).plan.steps, s'.status = StepStatus.pending →
        ∃ d ∈ s'.dependsOn, depCompleted (execute env p).plan d = false) ∧
    (∀ s0 ∈ p.steps, ¬ toolFails env s0 →
        (∀ t0 ∈ p.steps, toolFails env t0 → ¬ DepPath p s0.id t0.id) →
        ∃ s', (execute env p).plan.steps.find? (fun t => t.id == s0.id) = some s' ∧
          s'.status = StepStatus.completed) := by
  have hnodup := hvalid.1
  refine ⟨final_pending_dep_not_completed env p hnodup, ?_⟩
  obtain ⟨rank, hrank⟩ := hvalid.2.2.1
  have hfresh := hvalid.2.2.2
  have hres := hvalid.2.1
  obtain ⟨hids, hsteps, _⟩ := execute_inv env p hnodup
  have hnd : ∀ s0 ∈ p.steps, ¬ gatedDenied env s0 := by
    intro s0 hs0 hgd
    obtain ⟨h1, _⟩ := hgd
    rw [hnogate s0 hs0] at h1
    cases h1
  have main : ∀ n, ∀ s0 ∈ p.steps, rank s0.id < n → ¬ toolFails env s0 →
      (∀ t0 ∈ p.steps, toolFails env t0 → ¬ DepPath p s0.id t0.id) →
      ∃ s', (execute env p).plan.steps.find? (fun t => t.id == s0.id) = some s' ∧
        s'.status = StepStatus.completed := by
    intro n
    induction n with
    | zero =>
        intro s0 _ hlt
        exact absurd hlt (Nat.not_lt_zero _)
    | succ n ih =>
        intro s0 hs0 hlt hok hnopath
        obtain ⟨s', hfind, hcases⟩ := hsteps s0 hs0
        refine ⟨s', hfind, ?_⟩
        rcases hcases with ⟨heq, _⟩ | ⟨_, _, hcause, _⟩
        · -- s' = s0 would still be pending at run end: impossible
          exfalso
          have hs'mem : s' ∈ (execute env p).plan.steps :=
            List.mem_of_find?_eq_some hfind
          have hs'pend : s'.status = StepStatus.pending := by
            rw [heq]
            exact (hfresh s0 hs0).1
          obtain ⟨d, hd, hdnc⟩ :=
            final_pending_dep_not_completed env p hnodup s' hs'mem hs'pend
          have hd0 : d ∈ s0.dependsOn := by
            rw [← heq]
            exact hd
          obtain ⟨d0, hd0mem, hd0id, _⟩ := depsResolvable_spec hres s0 hs0 d hd0
          have hedge : dependsDirect p s0.id d0.id :=
            ⟨s0, hs0, rfl, by rw [hd0id]; exact hd0⟩
          have hd0ok : ¬ toolFails env d0 := fun hf =>
            hnopath d0 hd0mem hf (DepPath.single hedge)
          have hd0nopath : ∀ t0 ∈ p.steps, toolFails env t0 →
              ¬ DepPath p d0.id t0.id := fun t0 ht0 hf hpath =>
            hnopath t0 ht0 hf (DepPath.cons hedge hpath)
          have hrankd : rank d0.id < n := by
            have h1 := hrank s0 hs0 d hd0
            rw [hd0id]
            omega
          obtain ⟨d', hdfind, hdcomp⟩ := ih d0 hd0mem hrankd hd0ok hd0nopath
          have hdc2 : depCompleted (execute env p).plan d = true := by
            unfold depCompleted
            rw [← hd0id, hdfind]
            show d'.status.isCompleted = true
            rw [hdcomp]
            rfl
          rw [hdc2] at hdnc
          cases hdnc
        · rcases hcause with ⟨hgd, _, _⟩ | ⟨_, r, hm, hstat, _⟩ | ⟨_, e, hm, _, _⟩
          · exact absurd hgd (hnd s0 hs0)
          · have hok2 : r.ok = true := ret_ok_of_not_toolFails hm hok
            rw [hstat, hok2]
            rfl
          · exact absurd (toolFails_of_thrown hm) hok
  intro s0 hs0 hok hnopath
  exact main (rank s0.id + 1) s0 hs0 (Nat.lt_succ_self _) hok hnopath

theorem hb_c2_witness :
    ∃ s', (execute c2Env c2Plan).plan.steps.find? (fun t => t.id == c2C.id) = some s' ∧
      s'.status = StepStatus.completed :=
  (hb_c2_amended c2Env c2Plan
      ⟨by decide, by decide, ⟨fun i => if i = "B" then 1 else 0, by decide⟩, by decide⟩
      (by decide)).2 c2C (by decide)
    (by show ¬ toolFailsB c2Env c2C = true; decide)
    (fun t0 _ _ => no_depPath_of_empty c2Plan c2C.id (by decide) t0.id)

instance (env : Env) (s : Step) : Decidable (toolFails env s) :=
  inferInstanceAs (Decidable (toolFailsB env s = true))

/-! ### Claim C3 -/

/-- C3 environment: `write_file` is approval-gated and the gate denies;
tools always succeed when invoked. -/
def c3Env : Env :=
  { requiresApproval := fun s => s.tool == "write_file"
    requestApproval := fun _ => false
    toolExec := fun _ _ => ToolOutcome.ret { ok := true, value := JVal.num 1 } }

def c3Plan : Plan :=
  { steps :=
      [ { id := "G", order := 1, tool := "write_file" },
        { id := "H", order := 2, tool := "read_file" } ] }

/-- C3 counterexample: the denied step does end `skipped` and the run
is not failed, but the stored result is
`{ok:false, error:"User denied approval"}` — not the claimed
`{ok:false, error:"approval denied"}`. -/
theorem hb_c3_counterexample :
    ValidPlan c3Plan ∧
      ((execute c3Env c3Plan).plan.steps.map (fun s => (s.id, s.status, s.result)))
        = [("G", StepStatus.skipped,
              some { ok := false, value := JVal.undef,
                     error := some "User denied approval" }),
           ("H", StepStatus.completed,
              some { ok := true, value := JVal.num 1, error := none })] ∧
      (∀ s ∈ (execute c3Env c3Plan).plan.steps, s.id = "G" →
          s.result ≠ some { ok := false, value := JVal.undef,
                            error := some "approval denied" }) ∧
      summarize (execute c3Env c3Plan).plan = RunStatus.completed := by
  refine ⟨⟨by decide, by decide, ⟨fun _ => 0, by decide⟩, by decide⟩,
    by decide, by decide, by decide⟩

/-- C3 (amended): a gated step whose decision is deny ends `skipped`
with result `{ok:false, error:"User denied approval"}` (the code's
string, not the spec's "approval denied"), and in a run whose tools
never fail, denials alone never make the run status `failed`. -/
theorem hb_c3_amended (env : Env) :
    (∀ s ctx, gatedDenied env s →
        (executeStep env s ctx).step.status = StepStatus.skipped ∧
        (executeStep env s ctx).step.result
          = some { ok := false, value := JVal.undef,
                   error := some "User denied approval" }) ∧
    (∀ p, ValidPlan p → (∀ s ∈ p.steps, ¬ toolFails env s) →
        summarize (execute env p).plan ≠ RunStatus.failed) := by
  constructor
  · intro s ctx hg
    rw [executeStep_denied env s ctx hg]
    exact ⟨rfl, rfl⟩
  · intro p hvalid htools hsum
    unfold summarize at hsum
    by_cases hnt : (execute env p).plan.steps.any (fun s => !s.status.isTerminal) = true
    · rw [if_pos hnt] at hsum
      cases hsum
    · rw [if_neg hnt] at hsum
      by_cases hf : (execute env p).plan.steps.any
          (fun s => s.status == StepStatus.failed) = true
      · obtain ⟨s', hs', hsf⟩ := List.any_eq_true.mp hf
        have hsf2 : s'.status = StepStatus.failed := by simpa using hsf
        obtain ⟨s0, hs0, _, hcase⟩ := final_status_cases env p hvalid s' hs'
        rcases hcase with heq | ⟨_, hcause⟩
        · have hp := (hvalid.2.2.2 s0 hs0).1
          rw [heq, hp] at hsf2
          cases hsf2
        · rcases hcause with ⟨_, hst, _⟩ | ⟨_, r, hm, hst, _⟩ | ⟨_, e, hm, _, _⟩
          · rw [hsf2] at hst
            cases hst
          · have hok := ret_ok_of_not_toolFails hm (htools s0 hs0)
            rw [hok] at hst
            rw [hsf2] at hst
            cases hst
          · exact absurd (toolFails_of_thrown hm) (htools s0 hs0)
      · rw [if_neg hf] at hsum
        cases hsum

def c3GStep : Step := { id := "G", order := 1, tool := "write_file" }

theorem hb_c3_witness :
    (executeStep c3Env c3GStep {}).step.status = StepStatus.skipped ∧
      (executeStep c3Env c3GStep {}).step.result
        = some { ok := false, value := JVal.undef,
                 error := some "User denied approval" } ∧
      summarize (execute c3Env c3Plan).plan ≠ RunStatus.failed := by
  have h1 := (hb_c3_amended c3Env).1 c3GStep {} ⟨by decide, by decide⟩
  have h2 := (hb_c3_amended c3Env).2 c3Plan
    ⟨by decide, by decide, ⟨fun _ => 0, by decide⟩, by decide⟩ (by decide)
  exact ⟨h1.1, h1.2, h2⟩

/-! ### Claim C4 -/

/-- C4: an approval-gated, denied step's capability is never invoked:
the run log contains no invocation event for that step's id. -/
theorem hb_c4 (env : Env) (p : Plan) (hvalid : ValidPlan p) :
    ∀ s0 ∈ p.steps, gatedDenied env s0 →
      ∀ tool, Event.invoked s0.id tool ∉ (execute env p).events := by
  intro s0 hs0 hgd tool hmem
  obtain ⟨hnodup, _, _, _⟩ := hvalid
  obtain ⟨_, _, hev⟩ := execute_inv env p hnodup
  obtain ⟨s1, hs1, hs1id, _, hs1nd⟩ := hev s0.id tool hmem
  have hss : s1 = s0 := step_id_unique hnodup hs1 hs0 hs1id
  rw [hss] at hs1nd
  exact hs1nd hgd

/-- C4 witness environment and plan: a single gated, denied step. -/
def c4Env : Env :=
  { requiresApproval := fun s => s.id == "D"
    requestApproval := fun _ => false
    toolExec := fun _ _ => ToolOutcome.ret { ok := true } }

def c4Step : Step := { id := "D", tool := "delete_file" }

def c4Plan : Plan := { steps := [c4Step] }

theorem hb_c4_witness :
    Event.invoked c4Step.id "delete_file" ∉ (execute c4Env c4Plan).events :=
  hb_c4 c4Env c4Plan ⟨by decide, by decide, ⟨fun _ => 0, by decide⟩, by decide⟩
    c4Step (by decide) ⟨by decide, by decide⟩ "delete_file"

/-! ### Claim C5 -/

def c5Env : Env :=
  { requiresApproval := fun _ => false
    requestApproval := fun _ => true
    toolExec := fun _ _ => ToolOutcome.ret { ok := true, value := JVal.num 0 } }

/-- C5 plan: three independent steps whose array order (X, Y, Z)
disagrees with their `order` fields (2, 1, 3). -/
def c5Plan : Plan :=
  { steps :=
      [ { id := "X", order := 2, tool := "convert" },
        { id := "Y", order := 1, tool := "convert" },
        { id := "Z", order := 3, tool := "convert" } ] }

/-- C5 counterexample: the engine's only tick launches all three ready
steps at once — there is no concurrency ceiling, so with any configured
ceiling of 2 the bound is exceeded — and it launches them in array
order `X, Y, Z`, not in the order-field order `Y, X, Z`. -/
theorem hb_c5_counterexample :
    ValidPlan c5Plan ∧
      (execute c5Env c5Plan).ticks = [["X", "Y", "Z"]] ∧
      (∀ ts ∈ (execute c5Env c5Plan).ticks, ¬ ts.length ≤ 2) ∧
      ["X", "Y", "Z"] ≠ ["Y", "X", "Z"] := by
  refine ⟨⟨by decide, by decide, ⟨fun _ => 0, by decide⟩, by decide⟩,
    by decide, by decide, by decide⟩

/-- C5 (amended): on each tick the engine launches the entire ready
set, in plan-array order (each tick's id list is a sublist of the
plan's id sequence; the `order` field plays no role), and no ceiling
bounds the launch count: a plan of n independent steps has all n of its
steps launched in the first tick. -/
theorem hb_c5_amended (env : Env) (p : Plan) (hvalid : ValidPlan p) :
    (∀ ts ∈ (execute env p).ticks, ts.Sublist p.stepIds) ∧
    ((∀ s ∈ p.steps, s.dependsOn = []) → p.steps ≠ [] →
      (execute env p).ticks.head? = some p.stepIds) := by
  constructor
  · exact executeLoop_ticks_sublist hvalid.1 _ _ (Inv_init env p hvalid.1)
      (by intro ts h; cases h)
  · intro hnodeps hne
    have hready : readySteps p = p.steps := by
      apply List.filter_eq_self.mpr
      intro s hs
      have hp : s.status.isPending = true := by
        rw [(hvalid.2.2.2 s hs).1]
        rfl
      have ha : allDependenciesSatisfied s p = true := by
        unfold allDependenciesSatisfied
        rw [hnodeps s hs]
        rfl
      rw [hp, ha]
      rfl
    have hrem : hasRemainingSteps p = true := by
      obtain ⟨s, rest, hcons⟩ := List.exists_cons_of_ne_nil hne
      have hsmem : s ∈ p.steps := by
        rw [hcons]
        exact List.mem_cons_self s rest
      refine List.any_eq_true.mpr ⟨s, hsmem, ?_⟩
      rw [(hvalid.2.2.2 s hsmem).1]
      rfl
    have hempty : ¬ ((readySteps p).isEmpty = true) := by
      rw [hready]
      cases hs : p.steps with
      | nil => exact absurd hs hne
      | cons a l => simp
    show (executeLoop env (pendingCount p + 1)
        { plan := p, ctx := {}, events := [], ticks := [], fueled := true }).ticks.head?
      = some p.stepIds
    have hval : executeLoop env (pendingCount p + 1)
        { plan := p, ctx := {}, events := [], ticks := [], fueled := true }
        = executeLoop env (pendingCount p)
          { runBatch env ((readySteps p).map (fun s => s.id))
              { plan := p, ctx := {}, events := [], ticks := [], fueled := true } with
            ticks := (runBatch env ((readySteps p).map (fun s => s.id))
                { plan := p, ctx := {}, events := [], ticks := [], fueled := true }).ticks
              ++ [(readySteps p).map (fun s => s.id)] } := by
      simp only [executeLoop]
      rw [if_pos hrem, if_neg hempty]
    rw [hval]
    obtain ⟨more, hmore⟩ := @executeLoop_ticks_extend env (pendingCount p)
      { runBatch env ((readySteps p).map (fun s => s.id))
          { plan := p, ctx := {}, events := [], ticks := [], fueled := true } with
        ticks := (runBatch env ((readySteps p).map (fun s => s.id))
            { plan := p, ctx := {}, events := [], ticks := [], fueled := true }).ticks
          ++ [(readySteps p).map (fun s => s.id)] }
    rw [hmore]
    have hticks : ((runBatch env ((readySteps p).map (fun s => s.id))
          { plan := p, ctx := {}, events := [], ticks := [], fueled := true }).ticks
        ++ [(readySteps p).map (fun s => s.id)]) ++ more
        = ((readySteps p).map (fun s => s.id)) :: more := by
      rw [runBatch_ticks]
      rfl
    show (((runBatch env ((readySteps p).map (fun s => s.id))
          { plan := p, ctx := {}, events := [], ticks := [], fueled := true }).ticks
        ++ [(readySteps p).map (fun s => s.id)]) ++ more).head? = some p.stepIds
    rw [hticks]
    show some ((readySteps p).map (fun s => s.id)) = some p.stepIds
    rw [hready]
    rfl

/-- C5 witness plan: two independent fresh steps. -/
def c5WPlan : Plan :=
  { steps :=
      [ { id := "P", order := 1, tool := "convert" },
        { id := "Q", order := 2, tool := "convert" } ] }

theorem hb_c5_witness :
    (∀ ts ∈ (execute c5Env c5WPlan).ticks, ts.Sublist c5WPlan.stepIds) ∧
      (execute c5Env c5WPlan).ticks.head? = some c5WPlan.stepIds := by
  have h := hb_c5_amended c5Env c5WPlan
    ⟨by decide, by decide, ⟨fun _ => 0, by decide⟩, by decide⟩
  exact ⟨h.1, h.2 (by decide) (by decide)⟩

/-! ### Claim C6 -/

/-- C6 counterexample: a batch that requests 50 workers gets 50 — the
pool is constructed with the request itself as its `maxConcurrency`, so
the declared process-wide hard limit `limits.maxSubAgents = 10` does
not bound any batch. -/
theorem hb_c6_counterexample :
    spawnSubAgentsTool_workers 50 = 50 ∧
      limits_maxSubAgents = 10 ∧
      50 > limits_maxSubAgents ∧
      spawnSubAgentsTool_workers 50 ≠ min 50 limits_maxSubAgents := by
  refine ⟨by decide, rfl, by decide, by decide⟩

/-- C6 (amended): `SubAgentPool.spawn` adds `min(count, maxConcurrency)`
workers, but `maxConcurrency` is a per-pool constructor argument
(default 5), and the `spawn_sub_agents` tool constructs the pool with
the batch's own requested count as the ceiling — so the batch's
effective parallelism equals its request; the process-wide
`limits.maxSubAgents` constant is not wired to the pool. -/
theorem hb_c6_amended :
    (∀ (pool : SubAgentPool) (count : Nat),
        (pool.spawn count).effectiveParallelism
          = pool.effectiveParallelism + min count pool.maxConcurrency) ∧
    (∀ count : Nat, ((SubAgentPool.make count).spawn count).maxConcurrency = count) ∧
    (∀ count : Nat, spawnSubAgentsTool_workers count = count) ∧
    SubAgentPool.make.maxConcurrency = 5 := by
  refine ⟨?_, fun _ => rfl, ?_, rfl⟩
  · intro pool count
    unfold SubAgentPool.spawn SubAgentPool.effectiveParallelism
    rw [List.length_append, List.length_range]
  · intro count
    unfold spawnSubAgentsTool_workers SubAgentPool.spawn SubAgentPool.make
      SubAgentPool.effectiveParallelism
    rw [List.length_append, List.length_range]
    simp [Nat.min_self]

/-! ### Claim C7 -/

/-- C7 counterexample: resolving `{content: "$step_1"}` against an
empty context returns normally with the value silently replaced by
`undefined` — no typed error is raised and nothing distinguishes the
missing reference from a real value. -/
theorem hb_c7_counterexample :
    ExecutionContext.resolveArgs {} [("content", JVal.str "$step_1")]
        = [("content", JVal.undef)] ∧
      ExecutionContext.get {} "step_1" = none := by
  refine ⟨by decide, by decide⟩

/-- C7 (amended): `resolveArgs` is total and silent: it preserves the
keys, replaces a `"$id"` string value by whatever the context holds for
`id` — `undefined` when the referenced step never stored a value — and
passes every non-reference value through unchanged; no error value
exists and no retry happens. -/
theorem hb_c7_amended :
    (∀ (c : ExecutionContext) (args : List (String × JVal)),
        (ExecutionContext.resolveArgs c args).map Prod.fst = args.map Prod.fst) ∧
    (∀ (c : ExecutionContext) (args : List (String × JVal)) (k s : String),
        startsWithDollar s = true → (k, JVal.str s) ∈ args →
        (k, (c.get (sliceOne s)).getD JVal.undef) ∈ ExecutionContext.resolveArgs c args) ∧
    (∀ (c : ExecutionContext) (args : List (String × JVal)) (k : String) (v : JVal),
        (k, v) ∈ args → (∀ s, v = JVal.str s → startsWithDollar s = false) →
        (k, v) ∈ ExecutionContext.resolveArgs c args) := by
  refine ⟨?_, ?_, ?_⟩
  · intro c args
    unfold ExecutionContext.resolveArgs
    rw [List.map_map]
    apply List.map_congr_left
    intro kv _
    obtain ⟨k, v⟩ := kv
    cases v with
    | str s =>
        by_cases hs : startsWithDollar s = true
        · simp [hs]
        · simp [hs]
    | num n => rfl
    | boolean b => rfl
    | undef => rfl
  · intro c args k s hs hmem
    unfold ExecutionContext.resolveArgs
    refine List.mem_map.mpr ⟨(k, JVal.str s), hmem, ?_⟩
    simp [hs]
  · intro c args k v hmem hno
    unfold ExecutionContext.resolveArgs
    refine List.mem_map.mpr ⟨(k, v), hmem, ?_⟩
    cases v with
    | str s => simp [hno s rfl]
    | num n => rfl
    | boolean b => rfl
    | undef => rfl

/-- C7 witness context: `step_1` stored a value, `step_2` did not. -/
def c7Ctx : ExecutionContext := { store := [("step_1", JVal.str "file contents")] }

theorem hb_c7_witness :
    startsWithDollar "$step_2" = true ∧
      ("content", JVal.str "$step_2") ∈
        [("path", JVal.str "out.json"), ("content", JVal.str "$step_2")] ∧
      ("content", (c7Ctx.get (sliceOne "$step_2")).getD JVal.undef) ∈
        ExecutionContext.resolveArgs c7Ctx
          [("path", JVal.str "out.json"), ("content", JVal.str "$step_2")] :=
  ⟨by decide, by decide,
    (hb_c7_amended).2.1 c7Ctx
      [("path", JVal.str "out.json"), ("content", JVal.str "$step_2")]
      "content" "$step_2" (by decide) (by decide)⟩

/-! ### Claim C8 -/

/-- C8: `executeWithRetry` retries only thrown (transient) failures, up
to the fixed bound of 3 attempts, with sleeps of 1000·2^i ms — each
successive delay double the previous; an attempt that returns a value
(e.g. a denied approval, which `executeStep` returns rather than
throws) is never retried; and the planning-spec retry loop's recorded
delays are the same doubling list [1000, 2000]. -/
theorem hb_c8 :
    (∀ (T : Type) (fn : Nat → Attempt T), (executeWithRetry fn).attempts ≤ 3) ∧
    (∀ (T : Type) (fn : Nat → Attempt T),
        (executeWithRetry fn).sleeps = [] ∨ (executeWithRetry fn).sleeps = [1000] ∨
          (executeWithRetry fn).sleeps = [1000, 2000]) ∧
    (∀ (T : Type) (fn : Nat → Attempt T) (t : T), fn 0 = Attempt.val t →
        executeWithRetry fn
          = { result := RetryResult.ok t, attempts := 1, sleeps := [] }) ∧
    (∀ (T : Type) (fn : Nat → Attempt T) (e1 e2 : String) (t : T),
        fn 0 = Attempt.err e1 → fn 1 = Attempt.err e2 → fn 2 = Attempt.val t →
        executeWithRetry fn
          = { result := RetryResult.ok t, attempts := 3, sleeps := [1000, 2000] }) ∧
    (∀ (env : Env) (s : Step), env.requiresApproval s = true →
        env.requestApproval s = false →
        agentRtExecuteStep env s
            = Attempt.val { ok := false, value := JVal.undef,
                            error := some "User denied approval" } ∧
          (executeWithRetry (fun _ => agentRtExecuteStep env s)).attempts = 1 ∧
          (executeWithRetry (fun _ => agentRtExecuteStep env s)).sleeps = []) ∧
    (∀ att : Nat → StepResult,
        (retryStrategy att).sleeps = [] ∨ (retryStrategy att).sleeps = [1000] ∨
          (retryStrategy att).sleeps = [1000, 2000]) := by
  have hgo : ∀ (T : Type) (fn : Nat → Attempt T),
      executeWithRetry fn
        = match fn 0 with
          | Attempt.val t => { result := RetryResult.ok t, attempts := 1, sleeps := [] }
          | Attempt.err _ =>
            match fn 1 with
            | Attempt.val t =>
              { result := RetryResult.ok t, attempts := 2, sleeps := [1000] }
            | Attempt.err _ =>
              match fn 2 with
              | Attempt.val t =>
                { result := RetryResult.ok t, attempts := 3, sleeps := [1000, 2000] }
              | Attempt.err e =>
                { result := RetryResult.fail e, attempts := 3, sleeps := [1000, 2000] } := by
    intro T fn
    rcases h0 : fn 0 with t0 | e0 <;> rcases h1 : fn 1 with t1 | e1 <;>
      rcases h2 : fn 2 with t2 | e2 <;>
      simp [executeWithRetry, executeWithRetryGo, h0, h1, h2]
  refine ⟨?_, ?_, ?_, ?_, ?_, ?_⟩
  · intro T fn
    rw [hgo]
    rcases h0 : fn 0 with t0 | e0 <;> rcases h1 : fn 1 with t1 | e1 <;>
      rcases h2 : fn 2 with t2 | e2 <;> simp
  · intro T fn
    rw [hgo]
    rcases h0 : fn 0 with t0 | e0 <;> rcases h1 : fn 1 with t1 | e1 <;>
      rcases h2 : fn 2 with t2 | e2 <;> simp
  · intro T fn t h0
    rw [hgo, h0]
  · intro T fn e1 e2 t h0 h1 h2
    rw [hgo, h0, h1, h2]
  · intro env s hra hrd
    have hstep : agentRtExecuteStep env s
        = Attempt.val { ok := false, value := JVal.undef,
                        error := some "User denied approval" } := by
      unfold agentRtExecuteStep
      rw [hra, hrd]
      rfl
    refine ⟨hstep, ?_, ?_⟩ <;> rw [hgo, hstep]
  · intro att
    rcases h0 : (att 0).ok with _ | _ <;> rcases h1 : (att 1).ok with _ | _ <;>
      rcases h2 : (att 2).ok with _ | _ <;>
      simp [retryStrategy, retryStrategyGo, h0, h1, h2]

/-- C8 witness: an operation that throws twice (timeouts) then
succeeds on the third attempt is retried with delays 1000 then 2000 and
ends ok; a denied approval is returned, not thrown, and is attempted
exactly once with no sleeps. -/
def c8Fn : Nat → Attempt Nat := fun i =>
  if i < 2 then Attempt.err "timeout" else Attempt.val 37

def c8DenyEnv : Env :=
  { requiresApproval := fun _ => true
    requestApproval := fun _ => false
    toolExec := fun _ _ => ToolOutcome.ret { ok := true } }

def c8Step : Step := { id := "R", tool := "fetch_url" }

theorem hb_c8_witness :
    executeWithRetry c8Fn
        = { result := RetryResult.ok 37, attempts := 3, sleeps := [1000, 2000] } ∧
      (executeWithRetry (fun _ => agentRtExecuteStep c8DenyEnv c8Step)).attempts = 1 ∧
      (executeWithRetry (fun _ => agentRtExecuteStep c8DenyEnv c8Step)).sleeps = [] := by
  have h4 := hb_c8.2.2.2.1 Nat c8Fn "timeout" "timeout" 37 (by decide) (by decide) (by decide)
  have h5 := hb_c8.2.2.2.2.1 c8DenyEnv c8Step (by decide) (by decide)
  exact ⟨h4, h5.2.1, h5.2.2⟩

/-! ### Claim C9 -/

instance (env : Env) (s : Step) : Decidable (gatedDenied env s) :=
  inferInstanceAs (Decidable (_ ∧ _))

/-- C9: the scheduling loop always terminates within its fuel bound
(each productive tick drives at least one pending step to a terminal
status, so the source's `while` loop cannot spin), it stops only when
all steps are terminal or no step is ready, and — per the spec-modelled
`summarize` — a run that stops with non-terminal steps remaining is
reported with the structural-error status, not as a normal
completion. -/
theorem hb_c9 (env : Env) (p : Plan) (hvalid : ValidPlan p) :
    (execute env p).fueled = true ∧
      (hasRemainingSteps (execute env p).plan = false ∨
        readySteps (execute env p).plan = []) ∧
      ((∃ s' ∈ (execute env p).plan.steps, s'.status.isTerminal = false) →
        summarize (execute env p).plan = RunStatus.structuralError) := by
  refine ⟨execute_fueled env p hvalid.1, execute_exit env p hvalid.1, ?_⟩
  rintro ⟨s', hs', hnt⟩
  unfold summarize
  rw [if_pos (List.any_eq_true.mpr ⟨s', hs', by rw [hnt]; rfl⟩)]

/-- C9 witness: `M`'s tool fails, so its dependent `N` is never ready;
the loop exits with `N` pending and the summary is a structural
error. -/
def c9Env : Env :=
  { requiresApproval := fun _ => false
    requestApproval := fun _ => true
    toolExec := fun tool _ =>
      if tool == "fetch_url" then ToolOutcome.ret { ok := false, error := some "ECONNRESET" }
      else ToolOutcome.ret { ok := true, value := JVal.str "ok" } }

def c9Plan : Plan :=
  { steps :=
      [ { id := "M", order := 1, tool := "fetch_url" },
        { id := "N", order := 2, tool := "write_file", dependsOn := ["M"] } ] }

theorem hb_c9_witness :
    (execute c9Env c9Plan).fueled = true ∧
      (hasRemainingSteps (execute c9Env c9Plan).plan = false ∨
        readySteps (execute c9Env c9Plan).plan = []) ∧
      summarize (execute c9Env c9Plan).plan = RunStatus.structuralError := by
  have h := hb_c9 c9Env c9Plan
    ⟨by decide, by decide, ⟨fun i => if i = "N" then 1 else 0, by decide⟩, by decide⟩
  exact ⟨h.1, h.2.1, h.2.2 (by decide)⟩

/-! ### Claim C10 -/

theorem ctx_get_set_self (c : ExecutionContext) (i : String) (v : JVal) :
    (c.set i v).get i = some v := by
  unfold ExecutionContext.set ExecutionContext.get
  rw [List.find?_cons_of_pos _ (by simp)]
  rfl

/-- C10: when the gate does not deny the step and the tool returns a
result — even one with `ok:false` — `executeStep` stores the result's
value in the context under the step's id unconditionally, marks the
step completed or failed by `ok`, keeps the result on the step, and a
later `"$id"` reference resolves to the stored value rather than being
absent from the context. -/
theorem hb_c10 (env : Env) (s : Step) (ctx : ExecutionContext) (r : StepResult)
    (hg : ¬ gatedDenied env s)
    (hm : env.toolExec s.tool s.args = ToolOutcome.ret r) :
    (executeStep env s ctx).ctx.get s.id = some r.value ∧
      (executeStep env s ctx).step.status
        = (if r.ok then StepStatus.completed else StepStatus.failed) ∧
      (executeStep env s ctx).step.result = some r ∧
      (∀ k ref, startsWithDollar ref = true → sliceOne ref = s.id →
        ExecutionContext.resolveArgs (executeStep env s ctx).ctx [(k, JVal.str ref)]
          = [(k, r.value)]) := by
  rw [executeStep_ret env s ctx r hg hm]
  have hget : (ctx.set s.id r.value).get s.id = some r.value := ctx_get_set_self ctx s.id r.value
  refine ⟨hget, rfl, rfl, ?_⟩
  intro k ref hsw hsl
  show ExecutionContext.resolveArgs (ctx.set s.id r.value) [(k, JVal.str ref)] = _
  unfold ExecutionContext.resolveArgs
  rw [List.map_cons, List.map_nil]
  simp only [hsw, if_true, hsl, hget]
  rfl

/-- C10 witness: a failing tool result whose value is still stored and
resolvable. -/
def c10Result : StepResult :=
  { ok := false, value := JVal.str "partial output", error := some "disk full" }

def c10Env : Env :=
  { requiresApproval := fun _ => false
    requestApproval := fun _ => true
    toolExec := fun _ _ => ToolOutcome.ret c10Result }

def c10Step : Step := { id := "S1", tool := "run_code" }

theorem hb_c10_witness :
    (executeStep c10Env c10Step {}).ctx.get c10Step.id = some c10Result.value ∧
      (executeStep c10Env c10Step {}).step.status = StepStatus.failed ∧
      (executeStep c10Env c10Step {}).step.result = some c10Result ∧
      ExecutionContext.resolveArgs (executeStep c10Env c10Step {}).ctx
          [("input", JVal.str "$S1")]
        = [("input", c10Result.value)] := by
  have h := hb_c10 c10Env c10Step {} c10Result (by decide) rfl
  exact ⟨h.1, h.2.1, h.2.2.1, h.2.2.2 "input" "$S1" (by decide) (by decide)⟩

end Homebase
